import Mathlib

/-!
Verification of the plan-execution core of the ai-agent-template repository.

Shallow embedding of:
  * `src/utils/plan_executor.py` (`execute_plan`): plan parsing from raw LLM
    text (direct JSON parse, markdown-fence regex fallback, bare-array regex
    fallback) and sequential execution of a decoded plan against a tool
    registry, with the "previous" sentinel substitution, trace-sink logging
    and stop-at-first-failure semantics;
  * `src/workflows/flyte_dynamic.py` (`execute_dynamic_task`) and
    `src/workflows/flyte_react_planner.py` (`execute_mini_plan`): the
    dependency-aware wave scheduler duplicated in those two files.

Python values decoded from JSON are modelled by the `Json` type; Python
side effects of tools are modelled by explicit state threading (a tool takes
and returns a caller-chosen state `σ`); a Python exception escaping a
function is modelled by `Except.error` carrying `str(e)`.
-/

namespace AgentCore

/-- A value decoded by Python's `json.loads`, as produced and consumed by
`execute_plan`.  Numbers are restricted to integers (the only numeric form
the plans in this repository use; floating-point literals are outside this
model).  Objects are association lists with unique keys, as built by
`json.loads` (later duplicate keys overwrite earlier ones). -/
inductive Json where
  | null : Json
  | bool (b : Bool) : Json
  | num (n : Int) : Json
  | str (s : String) : Json
  | arr (elems : List Json) : Json
  | obj (fields : List (String × Json)) : Json
deriving Repr

mutual

def Json.beq : Json → Json → Bool
  | .null, .null => true
  | .bool a, .bool b => a == b
  | .num a, .num b => a == b
  | .str a, .str b => a == b
  | .arr a, .arr b => Json.beqList a b
  | .obj a, .obj b => Json.beqFields a b
  | _, _ => false

def Json.beqList : List Json → List Json → Bool
  | [], [] => true
  | a :: as, b :: bs => Json.beq a b && Json.beqList as bs
  | _, _ => false

def Json.beqFields : List (String × Json) → List (String × Json) → Bool
  | [], [] => true
  | (ka, va) :: as, (kb, vb) :: bs => ka == kb && Json.beq va vb && Json.beqFields as bs
  | _, _ => false

end

mutual

theorem Json.beq_iff : ∀ a b : Json, Json.beq a b = true ↔ a = b
  | .null, b => by cases b <;> simp [Json.beq]
  | .bool a, b => by cases b <;> simp [Json.beq]
  | .num a, b => by cases b <;> simp [Json.beq]
  | .str a, b => by cases b <;> simp [Json.beq]
  | .arr a, b => by
      cases b <;> simp [Json.beq]
      exact Json.beqList_iff a _
  | .obj a, b => by
      cases b <;> simp [Json.beq]
      exact Json.beqFields_iff a _

theorem Json.beqList_iff : ∀ a b : List Json, Json.beqList a b = true ↔ a = b
  | [], b => by cases b <;> simp [Json.beqList]
  | x :: xs, b => by
      cases b with
      | nil => simp [Json.beqList]
      | cons y ys =>
        simp only [Json.beqList, Bool.and_eq_true, List.cons.injEq]
        rw [Json.beq_iff, Json.beqList_iff]

theorem Json.beqFields_iff : ∀ a b : List (String × Json), Json.beqFields a b = true ↔ a = b
  | [], b => by cases b <;> simp [Json.beqFields]
  | (k, v) :: xs, b => by
      cases b with
      | nil => simp [Json.beqFields]
      | cons y ys =>
        obtain ⟨k', v'⟩ := y
        simp only [Json.beqFields, Bool.and_eq_true, List.cons.injEq, Prod.mk.injEq]
        rw [Json.beq_iff, Json.beqFields_iff, beq_iff_eq]

end

instance : DecidableEq Json := fun a b =>
  decidable_of_iff (Json.beq a b = true) (Json.beq_iff a b)

instance {ε α : Type} [DecidableEq ε] [DecidableEq α] : DecidableEq (Except ε α) := fun a b =>
  match a, b with
  | .error e, .error e' => decidable_of_iff (e = e') (by simp)
  | .ok v, .ok v' => decidable_of_iff (v = v') (by simp)
  | .error _, .ok _ => isFalse (fun h => Except.noConfusion h)
  | .ok _, .error _ => isFalse (fun h => Except.noConfusion h)

mutual

/-- Python `repr()` of a decoded JSON value (the rendering `str()` uses for
elements inside containers). -/
def Json.pyRepr : Json → String
  | .null => "None"
  | .bool true => "True"
  | .bool false => "False"
  | .num n => toString n
  | .str s => "'" ++ s ++ "'"
  | .arr elems => "[" ++ Json.pyReprList elems ++ "]"
  | .obj fields => "\x7b" ++ Json.pyReprFields fields ++ "\x7d"

/-- Comma-joined `repr()`s of list elements. -/
def Json.pyReprList : List Json → String
  | [] => ""
  | [x] => Json.pyRepr x
  | x :: y :: xs => Json.pyRepr x ++ ", " ++ Json.pyReprList (y :: xs)

/-- Comma-joined `'key': repr(value)` renderings of dict items. -/
def Json.pyReprFields : List (String × Json) → String
  | [] => ""
  | [(k, v)] => "'" ++ k ++ "': " ++ Json.pyRepr v
  | (k, v) :: f :: fs => "'" ++ k ++ "': " ++ Json.pyRepr v ++ ", " ++ Json.pyReprFields (f :: fs)

end

/-- Python `str()` of a decoded JSON value, as used by the sentinel test
`str(a).lower() == "previous"` and by `f"Unknown tool: \x7btool_name\x7d"`. -/
def Json.pyStr : Json → String
  | .str s => s
  | v => v.pyRepr

/-- Python `d[k]` on a decoded value: for a dict, the value at the key
(`str(KeyError(k))` is the quoted key); subscripting a non-dict raises a
`TypeError`, whose exact message we model by a fixed marker since only its
presence is observable through `execute_plan`'s generic handler. -/
def Json.getItem (v : Json) (k : String) : Except String Json :=
  match v with
  | .obj fields =>
      match fields.lookup k with
      | some x => .ok x
      | none => .error ("'" ++ k ++ "'")
  | _ => .error "TypeError: value is not subscriptable by a string key"

/-- Python `d.get(k, default)` for the dict case (the only case in which it
is reached in `execute_plan`, after `step["tool"]` has succeeded). -/
def Json.getD (v : Json) (k : String) (dflt : Json) : Json :=
  match v with
  | .obj fields => (fields.lookup k).getD dflt
  | _ => dflt

/-- Python iteration `for x in v` over a decoded value: lists yield their
elements, strings their characters (as 1-character strings), dicts their
keys; other values raise `TypeError`. -/
def Json.pyIter : Json → Except String (List Json)
  | .arr elems => .ok elems
  | .str s => .ok (s.data.map (fun c => .str (String.singleton c)))
  | .obj fields => .ok (fields.map (fun f => .str f.1))
  | _ => .error "TypeError: value is not iterable"

-- ----------------------------------------------------------------------
-- Sequential plan execution (src/utils/plan_executor.py, execute_plan)
-- ----------------------------------------------------------------------

/-- A registered tool.  Python tools are arbitrary (possibly async) callables
with side effects; we model a call as a state transformer on a caller-chosen
state `σ` that either returns a value or raises (`Except.error` carries
`str(e)`).  Arity mismatches of `tool_func(*args)` are the tool's own
`TypeError`, modelled by the tool returning `.error`. -/
def Tool (σ : Type) := List Json → σ → Except String Json × σ

/-- The toolset resolved for the active agent scope: Python dict from tool
name to callable, modelled as an association list with unique keys. -/
def Toolset (σ : Type) := List (String × Tool σ)

/-- `tool_name in toolset` / `toolset[tool_name]`.  `tool_name` is whatever
`step["tool"]` decoded to; dict keys are strings, so a non-string value is
never a member. -/
def Toolset.find? (ts : Toolset σ) (toolName : Json) : Option (Tool σ) :=
  match toolName with
  | .str name => ts.lookup name
  | _ => none

/-- `args = [last_result if str(a).lower() == "previous" else a for a in args]`:
the sentinel substitution applied to the step's argument list before the tool
is invoked.  `last` is the previous step's result (`Json.null` models the
initial Python `None`). -/
def substPrevious (last : Json) (args : List Json) : List Json :=
  args.map (fun a => if a.pyStr.toLower = "previous" then last else a)

/-- One entry of `steps_log`:
`\x7b"tool": tool_name, "args": args, "result": result, "reasoning": reasoning\x7d`
(appended only after a successful tool call; `args` are the substituted
arguments). -/
structure StepEntry where
  tool : Json
  args : List Json
  result : Json
  reasoning : Json
deriving Repr, DecidableEq

/-- One record appended to the trace sink by `logger.log(...)`; fields that a
given call site does not pass are `none`. -/
structure LogEntry where
  tool : Json
  args : Json
  result? : Option Json := none
  error? : Option String := none
  reasoning? : Option Json := none
deriving Repr, DecidableEq

/-- The dict returned by `execute_plan`: either
`\x7b"final_result": last_result, "steps": steps_log\x7d` or
`\x7b"error": str(e), "steps": steps_log\x7d`.  `finalResult? = some v` models
the presence of the `"final_result"` key (whose value may itself be `None`),
and likewise for `error?`. -/
structure PlanResult where
  finalResult? : Option Json
  error? : Option String
  steps : List StepEntry
deriving Repr, DecidableEq

/-- The mutable locals of `execute_plan`'s loop.  `boundTool?`/`boundArgs?`
model which values the names `tool_name`/`args` are bound to when the
exception handler consults `locals()` (`none` = still unbound). -/
structure IterState (σ : Type) where
  last : Json
  log : List StepEntry
  state : σ
  sink : List LogEntry
  boundTool? : Option Json
  boundArgs? : Option Json

/-- The record logged by the `except` handler:
`logger.log(tool=tool_name if "tool_name" in locals() else "unknown",
args=args if "args" in locals() else [], error=str(e))`. -/
def handlerEntry (boundTool? : Option Json) (boundArgs? : Option Json) (e : String) : LogEntry :=
  { tool := boundTool?.getD (.str "unknown"),
    args := boundArgs?.getD (.arr []),
    error? := some e }

/-- One iteration of `execute_plan`'s `for step in plan` loop.
`Sum.inl` is the fall-through to the next iteration with updated locals;
`Sum.inr (e, st)` is the `except Exception as e` path: the handler has
already appended its sink record, and the function returns
`\x7b"error": str(e), "steps": steps_log\x7d`. -/
def stepOnce (ts : Toolset σ) (st : IterState σ) (step : Json) :
    IterState σ ⊕ (String × IterState σ) :=
  match step.getItem "tool" with
  | .error e =>
      -- `tool_name = step["tool"]` raised; `tool_name`/`args` keep their old bindings
      .inr (e, { st with sink := st.sink ++ [handlerEntry st.boundTool? st.boundArgs? e] })
  | .ok toolName =>
      match step.getItem "args" with
      | .error e =>
          .inr (e, { st with boundTool? := some toolName,
                             sink := st.sink ++ [handlerEntry (some toolName) st.boundArgs? e] })
      | .ok rawArgs =>
          let reasoning := step.getD "reasoning" (.str "")
          -- the list comprehension first iterates `args`; a non-iterable raises
          -- while `args` is still bound to `step["args"]`
          match rawArgs.pyIter with
          | .error e =>
              .inr (e, { st with boundTool? := some toolName, boundArgs? := some rawArgs,
                                 sink := st.sink ++
                                   [handlerEntry (some toolName) (some rawArgs) e] })
          | .ok items =>
              let args := substPrevious st.last items
              match ts.find? toolName with
              | some tool =>
                  match tool args st.state with
                  | (.ok result, s') =>
                      .inl { last := result,
                             log := st.log ++ [⟨toolName, args, result, reasoning⟩],
                             state := s',
                             sink := st.sink ++
                               [{ tool := toolName, args := .arr args,
                                  result? := some result, reasoning? := some reasoning }],
                             boundTool? := some toolName, boundArgs? := some (.arr args) }
                  | (.error e, s') =>
                      .inr (e, { st with state := s',
                                         boundTool? := some toolName,
                                         boundArgs? := some (.arr args),
                                         sink := st.sink ++
                                           [handlerEntry (some toolName) (some (.arr args)) e] })
              | none =>
                  -- `logger.log(..., error="Unknown tool", ...)` then
                  -- `raise ValueError(f"Unknown tool: \x7btool_name\x7d")`
                  let e := "Unknown tool: " ++ toolName.pyStr
                  .inr (e, { st with boundTool? := some toolName,
                                     boundArgs? := some (.arr args),
                                     sink := st.sink ++
                                       [{ tool := toolName, args := .arr args,
                                          error? := some "Unknown tool",
                                          reasoning? := some reasoning },
                                        handlerEntry (some toolName) (some (.arr args)) e] })

/-- The `for step in plan` loop of `execute_plan`, with early exit on the
first exception. -/
def runSteps (ts : Toolset σ) (st : IterState σ) :
    List Json → IterState σ ⊕ (String × IterState σ)
  | [] => .inl st
  | step :: rest =>
      match stepOnce ts st step with
      | .inl st' => runSteps ts st' rest
      | .inr fail => .inr fail

/-- The loop locals before the first iteration: `last_result = None`, empty
trace, the caller's tool state, empty sink, `tool_name`/`args` unbound. -/
def initState (s : σ) : IterState σ :=
  { last := .null, log := [], state := s, sink := [], boundTool? := none, boundArgs? := none }

/-- `execute_plan` from the point where the decoded plan list is in hand:
runs the steps in order and returns the result dict, the final tool state
and the trace-sink contents. -/
def execute_plan (ts : Toolset σ) (plan : List Json) (s : σ) :
    PlanResult × σ × List LogEntry :=
  match runSteps ts (initState s) plan with
  | .inl st => ({ finalResult? := some st.last, error? := none, steps := st.log },
                st.state, st.sink)
  | .inr (e, st) => ({ finalResult? := none, error? := some e, steps := st.log },
                     st.state, st.sink)

-- ----------------------------------------------------------------------
-- json.loads (the decoder execute_plan uses on raw LLM text)
-- ----------------------------------------------------------------------

/-- JSON whitespace as accepted by Python's `json.loads`. -/
def isJsonWs (c : Char) : Bool :=
  c = ' ' || c = '\t' || c = '\n' || c = '\r'

def skipWs : List Char → List Char
  | c :: cs => if isJsonWs c then skipWs cs else c :: cs
  | [] => []

def hexVal (c : Char) : Option Nat :=
  if '0' ≤ c ∧ c ≤ '9' then some (c.toNat - '0'.toNat)
  else if 'a' ≤ c ∧ c ≤ 'f' then some (c.toNat - 'a'.toNat + 10)
  else if 'A' ≤ c ∧ c ≤ 'F' then some (c.toNat - 'A'.toNat + 10)
  else none

/-- The character denoted by a single-character escape in a JSON string;
`none` for escapes `json.loads` rejects. -/
def escChar : Char → Option Char
  | '"' => some '"'
  | '\\' => some '\\'
  | '/' => some '/'
  | 'b' => some (Char.ofNat 8)
  | 'f' => some (Char.ofNat 12)
  | 'n' => some '\n'
  | 'r' => some '\r'
  | 't' => some '\t'
  | _ => none

/-- Body of a JSON string after the opening quote, up to and including the
closing quote.  Unescaped control characters are rejected (strict mode), as
are invalid escapes and unterminated strings. -/
def parseStringBody : List Char → Option (String × List Char)
  | [] => none
  | '"' :: cs => some ("", cs)
  | '\\' :: rest =>
      match rest with
      | 'u' :: h1 :: h2 :: h3 :: h4 :: cs => do
          let a ← hexVal h1
          let b ← hexVal h2
          let c ← hexVal h3
          let d ← hexVal h4
          let (s, cs') ← parseStringBody cs
          pure (String.singleton (Char.ofNat (((a * 16 + b) * 16 + c) * 16 + d)) ++ s, cs')
      | e :: cs => do
          let c ← escChar e
          let (s, cs') ← parseStringBody cs
          pure (String.singleton c ++ s, cs')
      | [] => none
  | c :: cs =>
      if c.toNat < 32 then none
      else do
        let (s, cs') ← parseStringBody cs
        pure (String.singleton c ++ s, cs')

/-- Digits of a JSON integer (JSON forbids leading zeros). -/
def parseDigits : List Char → Option (Nat × List Char)
  | c :: cs =>
      if c.isDigit then
        let rec go (acc : Nat) : List Char → Nat × List Char
          | d :: ds => if d.isDigit then go (acc * 10 + (d.toNat - '0'.toNat)) ds
                       else (acc, d :: ds)
          | [] => (acc, [])
        let (n, rest) := go (c.toNat - '0'.toNat) cs
        -- reject leading zeros such as "0123"
        if c = '0' ∧ (cs.head?.elim false Char.isDigit) then none
        else some (n, rest)
      else none
  | [] => none

/-- Python dict assignment `d[k] = v` on an association list: replace in
place if the key is present, else append. -/
def dictInsertStr (fields : List (String × Json)) (k : String) (v : Json) :
    List (String × Json) :=
  if (fields.lookup k).isSome then
    fields.map (fun f => if f.1 = k then (k, v) else f)
  else fields ++ [(k, v)]

mutual

/-- Recursive-descent JSON value parser (leading whitespace allowed), a model
of the decoder behind `json.loads`.  Numbers are integers only: the
floating-point forms (`.`/`e`) that Python would accept are outside this
model, as nothing in the repository's plans uses them. -/
def parseVal : Nat → List Char → Option (Json × List Char)
  | 0, _ => none
  | fuel + 1, cs =>
      match skipWs cs with
      | [] => none
      | c :: cs' =>
          if c = '"' then do
            let (s, rest) ← parseStringBody cs'
            pure (.str s, rest)
          else if c = '-' then do
            let (n, rest) ← parseDigits cs'
            pure (.num (-(n : Int)), rest)
          else if c.isDigit then do
            let (n, rest) ← parseDigits (c :: cs')
            pure (.num (n : Int), rest)
          else if c = '[' then
            match skipWs cs' with
            | ']' :: rest => some (.arr [], rest)
            | rest => do
                let (elems, rest') ← parseElems fuel rest
                pure (.arr elems, rest')
          else if c = '\x7b' then
            match skipWs cs' with
            | '\x7d' :: rest => some (.obj [], rest)
            | rest => do
                let (fields, rest') ← parseFields fuel [] rest
                pure (.obj fields, rest')
          else if c = 't' then
            match cs' with
            | 'r' :: 'u' :: 'e' :: rest => some (.bool true, rest)
            | _ => none
          else if c = 'f' then
            match cs' with
            | 'a' :: 'l' :: 's' :: 'e' :: rest => some (.bool false, rest)
            | _ => none
          else if c = 'n' then
            match cs' with
            | 'u' :: 'l' :: 'l' :: rest => some (.null, rest)
            | _ => none
          else none

/-- Comma-separated array elements up to the closing bracket. -/
def parseElems : Nat → List Char → Option (List Json × List Char)
  | 0, _ => none
  | fuel + 1, cs => do
      let (v, rest) ← parseVal fuel cs
      match skipWs rest with
      | ',' :: rest' => do
          let (vs, rest'') ← parseElems fuel rest'
          pure (v :: vs, rest'')
      | ']' :: rest' => pure ([v], rest')
      | _ => none

/-- Comma-separated object members up to the closing brace, accumulated by
dict assignment (later duplicate keys overwrite earlier ones). -/
def parseFields : Nat → List (String × Json) → List Char →
    Option (List (String × Json) × List Char)
  | 0, _, _ => none
  | fuel + 1, acc, cs =>
      match skipWs cs with
      | '"' :: cs' => do
          let (k, rest) ← parseStringBody cs'
          match skipWs rest with
          | ':' :: rest' => do
              let (v, rest'') ← parseVal fuel rest'
              let acc' := dictInsertStr acc k v
              match skipWs rest'' with
              | ',' :: rest''' => parseFields fuel acc' rest'''
              | '\x7d' :: rest''' => pure (acc', rest''')
              | _ => none
          | _ => none
      | _ => none

end

/-- `json.loads(raw)`: parse one JSON document and require that only
whitespace follows; `none` models a raised `JSONDecodeError`. -/
def jsonLoads (raw : String) : Option Json := do
  let (v, rest) ← parseVal (2 * raw.length + 16) raw.data
  match skipWs rest with
  | [] => pure v
  | _ => none

-- ----------------------------------------------------------------------
-- The two re.search fallbacks of execute_plan
-- ----------------------------------------------------------------------

/-- The fragment of Python regular expressions that the two fallback
patterns of `execute_plan` use: literals, `.` under `re.DOTALL`, character
classes, concatenation, alternation, greedy and lazy `*`, greedy `?`, and
one capturing group. -/
inductive RE where
  | eps : RE
  | anyc : RE
  | lit (c : Char) : RE
  | cls (neg : Bool) (cs : List Char) : RE
  | seq (a b : RE) : RE
  | alt (a b : RE) : RE
  | star (r : RE) : RE
  | lazystar (r : RE) : RE
  | opt (r : RE) : RE
  | group (r : RE) : RE

/-- Backtracking matcher in continuation-passing style, following the
preference order of Python's `re` engine: alternatives left first, greedy
repetition longest first, lazy repetition shortest first, and a repetition
whose body matched without consuming input stops iterating.  `g` is the text
captured so far by the (single) group; the continuation receives the
remaining suffix and the capture.  `fuel` bounds repetition unfolding and is
chosen large enough by the caller. -/
def reMatch : Nat → RE → List Char → Option (List Char) →
    (List Char → Option (List Char) → Option (List Char × Option (List Char))) →
    Option (List Char × Option (List Char))
  | 0, _, _, _, _ => none
  | _ + 1, .eps, s, g, k => k s g
  | _ + 1, .anyc, s, g, k => match s with | [] => none | _ :: t => k t g
  | _ + 1, .lit c, s, g, k =>
      match s with
      | d :: t => if d = c then k t g else none
      | [] => none
  | _ + 1, .cls neg cs, s, g, k =>
      match s with
      | d :: t => if (cs.contains d) ≠ neg then k t g else none
      | [] => none
  | fuel + 1, .seq a b, s, g, k =>
      reMatch fuel a s g (fun s' g' => reMatch fuel b s' g' k)
  | fuel + 1, .alt a b, s, g, k =>
      (reMatch fuel a s g k).orElse (fun _ => reMatch fuel b s g k)
  | fuel + 1, .opt r, s, g, k => (reMatch fuel r s g k).orElse (fun _ => k s g)
  | fuel + 1, .group r, s, g, k =>
      reMatch fuel r s g (fun s' _ => k s' (some (s.take (s.length - s'.length))))
  | fuel + 1, .star r, s, g, k =>
      (reMatch fuel r s g (fun s' g' =>
          if s'.length < s.length then reMatch fuel (.star r) s' g' k else none)).orElse
        (fun _ => k s g)
  | fuel + 1, .lazystar r, s, g, k =>
      (k s g).orElse (fun _ =>
        reMatch fuel r s g (fun s' g' =>
          if s'.length < s.length then reMatch fuel (.lazystar r) s' g' k else none))

/-- `re.search`: try the pattern at each successive start position and return
the leftmost match, as `(matched substring, group capture)`.  The fuel bounds
the matcher's recursion depth and is chosen far beyond what the two fixed
patterns can consume on the given text. -/
def reSearch (r : RE) (s : List Char) : Option (List Char × Option (List Char)) :=
  match reMatch (64 * (s.length + 2)) r s none (fun s' g => some (s', g)) with
  | some (s', g) => some (s.take (s.length - s'.length), g)
  | none =>
      match s with
      | [] => none
      | _ :: t => reSearch r t

/-- Concatenation of literal characters. -/
def reStr : List Char → RE
  | [] => .eps
  | c :: cs => .seq (.lit c) (reStr cs)

/-- Python `\s` (ASCII whitespace). -/
def reWs : RE := .cls false [' ', '\t', '\n', '\r', '\x0b', '\x0c']

/-- The markdown-fence pattern tried second:
`re.search(r'```(?:json)?\s*(\[.*?\])\s*```', raw_plan, re.DOTALL)`. -/
def fencePattern : RE :=
  .seq (reStr "```".data)
    (.seq (.opt (reStr "json".data))
      (.seq (.star reWs)
        (.seq (.group (.seq (.lit '[') (.seq (.lazystar .anyc) (.lit ']'))))
          (.seq (.star reWs) (reStr "```".data)))))

/-- The bare-array pattern tried last:
`re.search(r'\[(?:[^\[\]]*|\{[^}]*\})*\]', raw_plan, re.DOTALL)`. -/
def arrayPattern : RE :=
  .seq (.lit '[')
    (.seq (.star (.alt (.star (.cls true ['[', ']']))
                       (.seq (.lit '\x7b') (.seq (.star (.cls true ['\x7d'])) (.lit '\x7d')))))
      (.lit ']'))

/-- The message of the `ValueError` raised when no strategy extracts a plan. -/
def planParseErrorMsg : String := "Could not extract valid JSON array from LLM response"

/-- The second recovery strategy: the decoded contents of the first fenced
array found in the raw text, if the fence pattern matches and its captured
group parses. -/
def fenceCandidate (raw : String) : Option Json :=
  match reSearch fencePattern raw.data with
  | some (_, some g) => jsonLoads (String.mk g)
  | _ => none

/-- The plan-recovery logic of `execute_plan`: direct `json.loads` first; on
failure, a fenced array whose contents parse; on failure, the first substring
matched by the bare-array pattern, raising `ValueError` (`Except.error`) if
it is absent or does not parse. -/
def extractPlan (raw : String) : Except String Json :=
  match jsonLoads raw with
  | some v => .ok v
  | none =>
      match fenceCandidate raw with
      | some v => .ok v
      | none =>
          match reSearch arrayPattern raw.data with
          | some (m, _) =>
              match jsonLoads (String.mk m) with
              | some v => .ok v
              | none => .error planParseErrorMsg
          | none => .error planParseErrorMsg

/-- `execute_plan` on a decoded plan value: `for step in plan` first asks for
an iterator (a non-iterable raises inside the `try`, so it is reported as a
structured error result), then runs the steps. -/
def executeDecoded (ts : Toolset σ) (v : Json) (s : σ) :
    PlanResult × σ × List LogEntry :=
  match v.pyIter with
  | .ok items => execute_plan ts items s
  | .error e =>
      ({ finalResult? := none, error? := some e, steps := [] }, s,
       [handlerEntry none none e])

/-- `execute_plan` from the raw LLM text onward: plan extraction happens
before the `try` block, so its `ValueError` escapes the function
(`Except.error`), while everything after parsing returns a structured
result (`Except.ok`). -/
def execute_plan_raw (ts : Toolset σ) (raw : String) (s : σ) :
    Except String (PlanResult × σ × List LogEntry) :=
  match extractPlan raw with
  | .error e => .error e
  | .ok v => .ok (executeDecoded ts v s)

-- ----------------------------------------------------------------------
-- Dependency-aware wave scheduler
-- (src/workflows/flyte_dynamic.py, execute_dynamic_task;
--  src/workflows/flyte_react_planner.py, execute_mini_plan)
-- ----------------------------------------------------------------------

/-- One node of the planner's dependency graph (`agents/planner_agent.py`'s
`AgentStep` dataclass, consumed by both scheduler copies). -/
structure AgentStep where
  agent : String
  task : String
  dependencies : List Nat
deriving Repr, DecidableEq

/-- The result object returned by an awaited agent task (`final_result` and
`error` fields of the per-agent dataclasses; `summary?` models the optional
`summary` attribute consulted via `getattr` for web-search results). -/
structure AgentResult where
  final_result : String
  summary? : Option String := none
  error : String := ""
deriving Repr, DecidableEq

/-- Dispatching one agent invocation: the scheduler awaits the agent task
named by the step; the call either returns its result object or raises
(`Except.error`), and `execute_step` installs no handler around it. -/
def AgentCall := String → String → Except String AgentResult

/-- The agent names the `if`/`elif` routing chain of both scheduler copies
recognizes. -/
def knownAgents : List String := ["math", "string", "web_search", "code", "weather"]

/-- Python dict assignment `completed_results[k] = v` on an association
list: replace in place if present, else append. -/
def dictInsertNat (m : List (Nat × α)) (k : Nat) (v : α) : List (Nat × α) :=
  if (m.lookup k).isSome then m.map (fun p => if p.1 = k then (k, v) else p)
  else m ++ [(k, v)]

/-- `all(dep_idx in completed_results for dep_idx in step.dependencies)`. -/
def depsReady (completed : List (Nat × α)) (p : Nat × AgentStep) : Bool :=
  p.2.dependencies.all (fun d => (completed.lookup d).isSome)

/-- The shared shape of the wave loop in both files: while steps are
pending, split them into `ready` (all dependencies completed) and
`remaining`; break if nothing is ready (circular/unsatisfiable graph);
otherwise dispatch every ready step (`asyncio.gather`: the first exception
propagates out of the loop), merge the wave's results into the completed
map by dict assignment, and continue with the remaining steps.  `run` is
the file-specific `execute_step`; `fuel` exceeds the number of iterations,
which is at most one more than the initial pending count. -/
def waveLoop (run : List (Nat × α) → Nat × AgentStep → Except String (Nat × α)) :
    Nat → List (Nat × α) → List (Nat × AgentStep) → Except String (List (Nat × α))
  | 0, completed, _ => .ok completed
  | fuel + 1, completed, pending =>
      if pending.isEmpty then .ok completed
      else
        let ready := pending.filter (depsReady completed)
        let remaining := pending.filter (fun p => !(depsReady completed p))
        if ready.isEmpty then .ok completed
        else do
          let results ← ready.mapM (run completed)
          waveLoop run fuel (results.foldl (fun m q => dictInsertNat m q.1 q.2) completed)
            remaining

/-- `AgentExecution` dataclass of `flyte_dynamic.py`. -/
structure AgentExecution where
  agent : String
  task : String
  result_summary : String
  result_full : String
  error : String := ""
deriving Repr, DecidableEq

/-- Filler an unreachable `completed_results[dep_idx]` lookup returns; the
`ready` filter guarantees every dependency of a dispatched step is present,
so no real execution observes it (in Python the lookup would raise). -/
def keyErrorExecution : AgentExecution := ⟨"KeyError", "", "", "", ""⟩

/-- Task-text augmentation of `flyte_dynamic.execute_step`: when the step
has dependencies, prepend one rendered summary line per dependency. -/
def dynAugmentTask (completed : List (Nat × AgentExecution)) (step : AgentStep) : String :=
  if step.dependencies.isEmpty then step.task
  else
    "Context from previous steps:\n" ++
      String.intercalate "\n" (step.dependencies.map (fun d =>
        let depExec := (completed.lookup d).getD keyErrorExecution
        "Step " ++ toString d ++ " (" ++ depExec.agent ++ "): " ++ depExec.result_summary)) ++
      "\n\nYour task: " ++ step.task

/-- `execute_step` of `flyte_dynamic.py`: build the (possibly augmented)
task text, route on the agent name, and wrap the agent's result object into
an `AgentExecution`; an unknown agent becomes an in-band error entry, while
an exception raised by the awaited agent call propagates (there is no
`try` around it). -/
def execute_step_dyn (call : AgentCall) (completed : List (Nat × AgentExecution))
    (p : Nat × AgentStep) : Except String (Nat × AgentExecution) :=
  let task := dynAugmentTask completed p.2
  if knownAgents.contains p.2.agent then
    match call p.2.agent task with
    | .error e => .error e
    | .ok r =>
        let result_summary :=
          if p.2.agent = "web_search" then r.summary?.getD r.final_result else r.final_result
        .ok (p.1, { agent := p.2.agent, task := p.2.task, result_summary := result_summary,
                    result_full := r.final_result, error := r.error })
  else
    .ok (p.1, { agent := p.2.agent, task := p.2.task, result_summary := "",
                result_full := "", error := "Unknown agent: " ++ p.2.agent })

/-- The orchestration core of `execute_dynamic_task` (`flyte_dynamic.py`):
run the wave loop over the planner's steps, then rebuild the result list in
original order via `[completed_results[i] for i in range(len(steps))]` —
a lookup that raises `KeyError` if some step never completed. -/
def execute_dynamic_task (call : AgentCall) (steps : List AgentStep) :
    Except String (List AgentExecution) := do
  let completed ← waveLoop (execute_step_dyn call) (steps.length + 1) [] steps.enum
  match (List.range steps.length).mapM (fun i => completed.lookup i) with
  | some l => pure l
  | none => .error "KeyError"

/-- One entry of `execute_mini_plan`'s result list:
`\x7b"agent": ..., "task": ..., "observation": ...\x7d`. -/
structure MiniRecord where
  agent : String
  task : String
  observation : String
deriving Repr, DecidableEq

/-- Unreachable lookup filler for the mini-plan augmentation, as
`keyErrorExecution`. -/
def keyErrorRecord : MiniRecord := ⟨"KeyError", "", ""⟩

/-- Task-text augmentation of `flyte_react_planner.execute_step`. -/
def miniAugmentTask (completed : List (Nat × MiniRecord)) (step : AgentStep) : String :=
  if step.dependencies.isEmpty then step.task
  else
    "Context:\n" ++
      String.intercalate "\n" (step.dependencies.map (fun d =>
        "Result from step " ++ toString d ++ ": " ++
          ((completed.lookup d).getD keyErrorRecord).observation)) ++
      "\n\nYour task: " ++ step.task

/-- `execute_step` of `flyte_react_planner.py`. -/
def execute_step_mini (call : AgentCall) (completed : List (Nat × MiniRecord))
    (p : Nat × AgentStep) : Except String (Nat × MiniRecord) :=
  let task := miniAugmentTask completed p.2
  if knownAgents.contains p.2.agent then
    match call p.2.agent task with
    | .error e => .error e
    | .ok r =>
        let observation :=
          if p.2.agent = "web_search" then r.summary?.getD r.final_result else r.final_result
        .ok (p.1, { agent := p.2.agent, task := p.2.task, observation := observation })
  else
    .ok (p.1, { agent := p.2.agent, task := p.2.task,
                observation := "ERROR: Unknown agent '" ++ p.2.agent ++ "'" })

/-- `execute_mini_plan` (`flyte_react_planner.py`): the same wave loop,
ending with the same order-rebuilding comprehension and its potential
`KeyError`. -/
def execute_mini_plan (call : AgentCall) (steps : List AgentStep) :
    Except String (List MiniRecord) := do
  let completed ← waveLoop (execute_step_mini call) (steps.length + 1) [] steps.enum
  match (List.range steps.length).mapM (fun i => completed.lookup i) with
  | some l => pure l
  | none => .error "KeyError"

-- ----------------------------------------------------------------------
-- Association-list lemmas used throughout
-- ----------------------------------------------------------------------

theorem lookup_append (l₁ l₂ : List (Nat × α)) (k : Nat) :
    (l₁ ++ l₂).lookup k = ((l₁.lookup k).orElse (fun _ => l₂.lookup k)) := by
  induction l₁ with
  | nil => rfl
  | cons p t ih =>
      obtain ⟨a, b⟩ := p
      by_cases h : k = a
      · simp [List.lookup, h, Option.orElse]
      · have hne : (k == a) = false := by simp [h]
        simpa [List.lookup, hne] using ih

theorem lookup_isSome_iff (l : List (Nat × α)) (k : Nat) :
    (l.lookup k).isSome ↔ k ∈ l.map Prod.fst := by
  induction l with
  | nil => simp [List.lookup]
  | cons p t ih =>
      obtain ⟨a, b⟩ := p
      by_cases h : k = a
      · simp [List.lookup, h]
      · have hne : (k == a) = false := by simp [h]
        simp only [List.lookup, hne, List.map_cons, List.mem_cons]
        rw [ih]
        simp [h]

theorem mem_of_lookup_eq_some {l : List (Nat × α)} {k : Nat} {v : α}
    (h : l.lookup k = some v) : (k, v) ∈ l := by
  induction l with
  | nil => simp [List.lookup] at h
  | cons p t ih =>
      obtain ⟨a, b⟩ := p
      by_cases hk : k = a
      · subst hk
        simp [List.lookup] at h
        simp [h]
      · have hne : (k == a) = false := by simp [hk]
        simp only [List.lookup, hne] at h
        exact List.mem_cons_of_mem _ (ih h)

theorem lookup_eq_none_of_not_mem {l : List (Nat × α)} {k : Nat}
    (h : k ∉ l.map Prod.fst) : l.lookup k = none := by
  cases hl : l.lookup k with
  | none => rfl
  | some v =>
      exact absurd ((lookup_isSome_iff l k).mp (by simp [hl])) h

-- ----------------------------------------------------------------------
-- C8: a PlanResult is exactly one of success-with-final_result or
-- error-with-trace
-- ----------------------------------------------------------------------

/-- C8: for every plan and every registry, the result of sequential
execution carries either `final_result` (and no `error` field) or `error`
(and no `final_result` field) — never both and never neither. -/
theorem plan_result_exactly_one_shape {σ : Type} (ts : Toolset σ) (plan : List Json) (s : σ) :
    (((execute_plan ts plan s).1.finalResult?.isSome ∧
        (execute_plan ts plan s).1.error? = none) ∨
      ((execute_plan ts plan s).1.finalResult? = none ∧
        (execute_plan ts plan s).1.error?.isSome)) ∧
    ¬ ((execute_plan ts plan s).1.finalResult?.isSome ∧
        (execute_plan ts plan s).1.error?.isSome) := by
  unfold execute_plan
  cases runSteps ts (initState s) plan with
  | inl st => simp
  | inr fail => obtain ⟨e, st⟩ := fail; simp

-- ----------------------------------------------------------------------
-- C4: behavior of the wave scheduler on an unsatisfiable dependency graph
-- ----------------------------------------------------------------------

/-- C4 (failing input): on the plan `[\x7bdeps: [5]\x7d]` with a single step
depending on an out-of-range index, the wave loop of both scheduler copies
does break out gracefully, but the subsequent order-rebuilding comprehension
`[completed_results[i] for i in range(len(steps))]` raises `KeyError`, so the
whole call fails instead of returning an empty or partial result set. -/
theorem scheduler_stall_raises_keyerror :
    execute_dynamic_task (fun _ _ => .ok { final_result := "r" }) [⟨"math", "t", [5]⟩] =
      .error "KeyError" ∧
    execute_mini_plan (fun _ _ => .ok { final_result := "r" }) [⟨"math", "t", [5]⟩] =
      .error "KeyError" :=
  ⟨rfl, rfl⟩

-- ----------------------------------------------------------------------
-- C3: what the plan parser extracts from raw LLM text
-- ----------------------------------------------------------------------

/-- C3 (counterexample): a raw text that contains a syntactically valid
JSON array of well-formed tool-call objects embedded in leading prose, for
which the parser does not return that array: the bare-array regex finds the
earlier prose fragment `[1]` first, so the parser returns `[1]`. -/
theorem parse_embedded_array_counterexample :
    jsonLoads "[\x7b\"tool\": \"add\", \"args\": [2, 3]\x7d]" =
      some (.arr [.obj [("tool", .str "add"), ("args", .arr [.num 2, .num 3])]]) ∧
    extractPlan "See [1] for details: [\x7b\"tool\": \"add\", \"args\": [2, 3]\x7d]" =
      .ok (.arr [.num 1]) ∧
    Json.arr [.num 1] ≠
      .arr [.obj [("tool", .str "add"), ("args", .arr [.num 2, .num 3])]] :=
  ⟨rfl, rfl, by decide⟩

/-- C3 (amended): when the whole raw text is a syntactically valid JSON
document, the parser returns exactly its decoded value; the fence and prose
fallbacks instead return the first regex-extracted bracketed fragment that
parses, which need not be the embedded tool-call array. -/
theorem parse_whole_text_returns_decoded (raw : String) (v : Json)
    (h : jsonLoads raw = some v) : extractPlan raw = .ok v := by
  unfold extractPlan
  rw [h]

/-- Witness for `parse_whole_text_returns_decoded` at a concrete clean
tool-call array. -/
theorem parse_whole_text_returns_decoded_witness :
    extractPlan "[\x7b\"tool\": \"add\", \"args\": [2, 3]\x7d]" =
      .ok (.arr [.obj [("tool", .str "add"), ("args", .arr [.num 2, .num 3])]]) :=
  parse_whole_text_returns_decoded _ _ rfl

-- ----------------------------------------------------------------------
-- C7: how a failed parse is reported
-- ----------------------------------------------------------------------

/-- C7 (counterexample): two refutations of the claim as stated.
(1) On raw text with no extractable array literal on which extraction does
fail, the failure is a raised `ValueError` escaping `execute_plan`
(`Except.error`), not a structured `\x7b"error": ...\x7d` result
(`Except.ok` with an `error?` field): the parse happens before the `try`
block.  (2) Having no extractable array literal does not even imply a parse
failure: the whole text `"\x7b\x7d"` is a valid JSON object containing no
array literal, yet `json.loads` accepts it directly and the loop over its
zero keys silently returns the empty-plan success result
`\x7b"final_result": None, "steps": []\x7d`. -/
theorem parse_error_raised_counterexample :
    execute_plan_raw ([] : Toolset Unit) "There is no plan here." () =
      .error "Could not extract valid JSON array from LLM response" ∧
    execute_plan_raw ([] : Toolset Unit) "\x7b\x7d" () =
      .ok ({ finalResult? := some .null, error? := none, steps := [] }, (), []) :=
  ⟨rfl, rfl⟩

/-- C7 (amended): whenever all three extraction strategies fail (direct
`json.loads`, the fenced-array fallback and the bare-array fallback), the
failure carries the fixed `ValueError` message and propagates out of
`execute_plan` as a raised exception — no structured result, and in
particular no silently empty plan, is produced for such input.  But text
with no extractable array literal need not fail this way: any whole-text
valid JSON document parses directly, so `"\x7b\x7d"` silently executes an
empty plan successfully, and `"null"` produces a structured in-`try`
`TypeError` result (the decoded `None` is not iterable) rather than a
raised parse error. -/
theorem parse_error_raises {σ : Type} (ts : Toolset σ) (raw : String) (s : σ) (e : String)
    (h : extractPlan raw = .error e) :
    (e = planParseErrorMsg ∧ execute_plan_raw ts raw s = .error e) ∧
    execute_plan_raw ([] : Toolset Unit) "\x7b\x7d" () =
      .ok ({ finalResult? := some .null, error? := none, steps := [] }, (), []) ∧
    execute_plan_raw ([] : Toolset Unit) "null" () =
      .ok ({ finalResult? := none, error? := some "TypeError: value is not iterable",
             steps := [] }, (),
           [{ tool := .str "unknown", args := .arr [],
              error? := some "TypeError: value is not iterable" }]) := by
  refine ⟨⟨?_, by unfold execute_plan_raw; rw [h]⟩, rfl, rfl⟩
  unfold extractPlan at h
  repeat' split at h
  all_goals first
    | exact (Except.noConfusion h)
    | (injection h with h'; exact h'.symm)

/-- Witness for `parse_error_raises` at a concrete prose-only text. -/
theorem parse_error_raises_witness :
    ("Could not extract valid JSON array from LLM response" = planParseErrorMsg ∧
      execute_plan_raw ([] : Toolset Unit) "I could not find any tools to use." () =
        .error "Could not extract valid JSON array from LLM response") ∧
    execute_plan_raw ([] : Toolset Unit) "\x7b\x7d" () =
      .ok ({ finalResult? := some .null, error? := none, steps := [] }, (), []) ∧
    execute_plan_raw ([] : Toolset Unit) "null" () =
      .ok ({ finalResult? := none, error? := some "TypeError: value is not iterable",
             steps := [] }, (),
           [{ tool := .str "unknown", args := .arr [],
              error? := some "TypeError: value is not iterable" }]) :=
  parse_error_raises _ _ _ _ rfl

-- ----------------------------------------------------------------------
-- Structure of the execution loop: early exit and the produced trace
-- ----------------------------------------------------------------------

/-- The loop processes a concatenated plan by processing the prefix and, if
no exception occurred, continuing with the suffix from the reached state.

In particular the suffix is irrelevant once the prefix has failed: the tools
of the later steps are never invoked. -/
theorem runSteps_append {σ : Type} (ts : Toolset σ) (st : IterState σ) (pre post : List Json) :
    runSteps ts st (pre ++ post) =
      match runSteps ts st pre with
      | .inl st' => runSteps ts st' post
      | .inr fail => .inr fail := by
  induction pre generalizing st with
  | nil => rfl
  | cons step rest ih =>
      simp only [List.cons_append, runSteps]
      cases stepOnce ts st step with
      | inl st' => exact ih st'
      | inr fail => rfl

/-- An iteration that raises leaves `steps_log` untouched: the failing call
itself is never appended to the returned trace. -/
theorem stepOnce_inr_log {σ : Type} {ts : Toolset σ} {st : IterState σ} {step : Json}
    {e : String} {st' : IterState σ} (h : stepOnce ts st step = .inr (e, st')) :
    st'.log = st.log := by
  simp only [stepOnce] at h
  repeat' split at h
  all_goals first
    | exact (Sum.noConfusion h)
    | (simp only [Sum.inr.injEq, Prod.mk.injEq] at h
       obtain ⟨he, hst⟩ := h
       subst hst
       rfl)

/-- Characterization of a successful iteration: both field accesses and the
argument iteration succeeded, the tool was found and returned a value, the
substituted arguments were passed to it, and the new trace entry records
tool, substituted args, result and reasoning. -/
theorem stepOnce_inl_spec {σ : Type} {ts : Toolset σ} {st : IterState σ} {step : Json}
    {st2 : IterState σ} (h : stepOnce ts st step = .inl st2) :
    ∃ toolName argsJ rawArgs result s' tool,
      step.getItem "tool" = .ok toolName ∧
      step.getItem "args" = .ok argsJ ∧
      argsJ.pyIter = .ok rawArgs ∧
      ts.find? toolName = some tool ∧
      tool (substPrevious st.last rawArgs) st.state = (.ok result, s') ∧
      st2 = { last := result,
              log := st.log ++ [⟨toolName, substPrevious st.last rawArgs, result,
                                 step.getD "reasoning" (.str "")⟩],
              state := s',
              sink := st.sink ++
                [{ tool := toolName, args := .arr (substPrevious st.last rawArgs),
                   result? := some result,
                   reasoning? := some (step.getD "reasoning" (.str "")) }],
              boundTool? := some toolName,
              boundArgs? := some (.arr (substPrevious st.last rawArgs)) } := by
  simp only [stepOnce] at h
  repeat' split at h
  all_goals first
    | exact (Sum.noConfusion h)
    | (rename_i x1 toolName hTool x2 argsJ hArgs x3 rawArgs hIter x4 tool hFind x5 result s' hCall
       simp only [Sum.inl.injEq] at h
       exact ⟨toolName, argsJ, rawArgs, result, s', tool, hTool, hArgs, hIter, hFind,
         hCall, h.symm⟩)

/-- The iteration reaching a tool name absent from the toolset: the code
first logs the `"Unknown tool"` sink record, then raises
`ValueError(f"Unknown tool: ...")`, whose handler logs a second record; the
trace (`steps_log`) is left untouched. -/
theorem stepOnce_unknown_tool {σ : Type} {ts : Toolset σ} (st : IterState σ)
    {step toolName argsJ : Json} {items : List Json}
    (hTool : step.getItem "tool" = .ok toolName)
    (hArgs : step.getItem "args" = .ok argsJ)
    (hIter : argsJ.pyIter = .ok items)
    (hFind : ts.find? toolName = none) :
    stepOnce ts st step = .inr ("Unknown tool: " ++ toolName.pyStr,
      { st with boundTool? := some toolName,
                boundArgs? := some (.arr (substPrevious st.last items)),
                sink := st.sink ++
                  [{ tool := toolName, args := .arr (substPrevious st.last items),
                     error? := some "Unknown tool",
                     reasoning? := some (step.getD "reasoning" (.str "")) },
                   handlerEntry (some toolName) (some (.arr (substPrevious st.last items)))
                     ("Unknown tool: " ++ toolName.pyStr)] }) := by
  simp only [stepOnce, hTool, hArgs, hIter, hFind]

-- ----------------------------------------------------------------------
-- C1: shape of the result when a mid-plan step fails
-- ----------------------------------------------------------------------

/-- Tools for the concrete failure scenarios: `A` succeeds with `1`, `B`
always raises `"boom"`, `C` succeeds and counts its invocations in the
threaded `Nat` state. -/
def tsABC : Toolset Nat :=
  [("A", fun _ s => (.ok (.num 1), s)),
   ("B", fun _ s => (.error "boom", s)),
   ("C", fun _ s => (.ok .null, s + 1))]

/-- A well-formed tool-call object. -/
def mkStep (t : String) (args : List Json) : Json :=
  .obj [("tool", .str t), ("args", .arr args), ("reasoning", .str "r")]

/-- C1 (counterexample): for the three-step plan `[A, B, C]` where `B` fails
after `A` succeeds, the returned trace contains exactly `A`'s entry and no
entry for the failing call `B` — the failure lives only in the `error` field
(and the trace sink), so `steps` is the partial trace up to but NOT
including the failing call.  `C`'s tool is never invoked: its call counter
stays `0`. -/
theorem failing_call_not_in_trace_counterexample :
    (execute_plan tsABC [mkStep "A" [], mkStep "B" [.str "previous"], mkStep "C" []] 0).1.error?
      = some "boom" ∧
    ((execute_plan tsABC [mkStep "A" [], mkStep "B" [.str "previous"], mkStep "C" []] 0).1.steps.map
      (fun e => e.tool)) = [.str "A"] ∧
    (execute_plan tsABC [mkStep "A" [], mkStep "B" [.str "previous"], mkStep "C" []] 0).1.steps.length
      = 1 ∧
    (execute_plan tsABC [mkStep "A" [], mkStep "B" [.str "previous"], mkStep "C" []] 0).2.1 = 0 := by
  decide

/-- C1 (amended): when the steps before `stepB` all succeed and `stepB`
fails, the run on the full plan equals the run truncated right after
`stepB` — result dict, tool states and sink alike, so no tool of any later
step is ever invoked — and the returned `steps` are exactly the trace of the
successful prefix, excluding the failing call (whose description is carried
by the `error` field). -/
theorem failed_step_truncates_plan {σ : Type} (ts : Toolset σ) (pre : List Json)
    (stepB : Json) (post : List Json) (s : σ)
    (hpre : (execute_plan ts pre s).1.error? = none)
    (hfail : ((execute_plan ts (pre ++ [stepB]) s).1.error?).isSome) :
    execute_plan ts (pre ++ stepB :: post) s = execute_plan ts (pre ++ [stepB]) s ∧
    (execute_plan ts (pre ++ stepB :: post) s).1.steps = (execute_plan ts pre s).1.steps := by
  cases h1 : runSteps ts (initState s) pre with
  | inr fail =>
      obtain ⟨e, stf⟩ := fail
      rw [execute_plan, h1] at hpre
      exact absurd hpre (by simp)
  | inl st' =>
      cases h2 : stepOnce ts st' stepB with
      | inl st2 =>
          rw [execute_plan, runSteps_append, h1] at hfail
          simp only [runSteps, h2] at hfail
          exact absurd hfail (by simp)
      | inr fail =>
          obtain ⟨e, stf⟩ := fail
          have hfull : runSteps ts (initState s) (pre ++ stepB :: post) = .inr (e, stf) := by
            rw [runSteps_append, h1]
            simp only [runSteps, h2]
          have htrunc : runSteps ts (initState s) (pre ++ [stepB]) = .inr (e, stf) := by
            rw [runSteps_append, h1]
            simp only [runSteps, h2]
          constructor
          · rw [execute_plan, hfull, execute_plan, htrunc]
          · rw [execute_plan, hfull, execute_plan, h1]
            simpa using stepOnce_inr_log h2

/-- Witness for `failed_step_truncates_plan` at the `[A, B, C]` plan. -/
theorem failed_step_truncates_plan_witness :
    execute_plan tsABC ([mkStep "A" []] ++ mkStep "B" [.str "previous"] :: [mkStep "C" []]) 0 =
      execute_plan tsABC ([mkStep "A" []] ++ [mkStep "B" [.str "previous"]]) 0 ∧
    (execute_plan tsABC
        ([mkStep "A" []] ++ mkStep "B" [.str "previous"] :: [mkStep "C" []]) 0).1.steps =
      (execute_plan tsABC [mkStep "A" []] 0).1.steps :=
  failed_step_truncates_plan tsABC [mkStep "A" []] (mkStep "B" [.str "previous"])
    [mkStep "C" []] 0 (by decide) (by decide)

-- ----------------------------------------------------------------------
-- C6: unknown tool name
-- ----------------------------------------------------------------------

/-- C6: if execution reaches a step whose tool name is not a key of the
toolset (all earlier steps succeeded), the run logs trace-sink entries
recording the unknown-tool error, attempts none of the remaining steps (the
result equals the run truncated at the unknown step), and returns the
terminal error `"Unknown tool: <name>"` with `steps` equal to the successful
prefix's trace. -/
theorem unknown_tool_aborts {σ : Type} (ts : Toolset σ) (s : σ) (pre post : List Json)
    (step toolName argsJ : Json) (items : List Json)
    (hpre : (execute_plan ts pre s).1.error? = none)
    (hTool : step.getItem "tool" = .ok toolName)
    (hArgs : step.getItem "args" = .ok argsJ)
    (hIter : argsJ.pyIter = .ok items)
    (hFind : ts.find? toolName = none) :
    execute_plan ts (pre ++ step :: post) s = execute_plan ts (pre ++ [step]) s ∧
    (execute_plan ts (pre ++ step :: post) s).1.error? =
      some ("Unknown tool: " ++ toolName.pyStr) ∧
    (execute_plan ts (pre ++ step :: post) s).1.steps = (execute_plan ts pre s).1.steps ∧
    ∃ le ∈ (execute_plan ts (pre ++ step :: post) s).2.2,
      le.tool = toolName ∧ le.error? = some "Unknown tool" := by
  cases h1 : runSteps ts (initState s) pre with
  | inr fail =>
      obtain ⟨e, stf⟩ := fail
      rw [execute_plan, h1] at hpre
      exact absurd hpre (by simp)
  | inl st' =>
      have h2 := @stepOnce_unknown_tool _ ts st' _ _ _ _ hTool hArgs hIter hFind
      have hfull : runSteps ts (initState s) (pre ++ step :: post) =
          runSteps ts st' (step :: post) := by rw [runSteps_append, h1]
      have htrunc : runSteps ts (initState s) (pre ++ [step]) =
          runSteps ts st' [step] := by rw [runSteps_append, h1]
      simp only [runSteps, h2] at hfull htrunc
      refine ⟨?_, ?_, ?_, ?_⟩
      · rw [execute_plan, hfull, execute_plan, htrunc]
      · rw [execute_plan, hfull]
      · rw [execute_plan, hfull, execute_plan, h1]
      · rw [execute_plan, hfull]
        refine ⟨{ tool := toolName, args := Json.arr (substPrevious st'.last items),
                  result? := none, error? := some "Unknown tool",
                  reasoning? := some (step.getD "reasoning" (.str "")) }, ?_, rfl, rfl⟩
        simp

/-- Witness for `unknown_tool_aborts`: the plan
`[\x7b"tool": "missing_tool", "args": []\x7d]` yields
`\x7b"error": "Unknown tool: missing_tool", "steps": []\x7d` and a sink
record of the unknown tool. -/
theorem unknown_tool_aborts_witness :
    execute_plan tsABC ([] ++ mkStep "missing_tool" [] :: []) 0 =
      execute_plan tsABC ([] ++ [mkStep "missing_tool" []]) 0 ∧
    (execute_plan tsABC ([] ++ mkStep "missing_tool" [] :: []) 0).1.error? =
      some ("Unknown tool: " ++ (Json.str "missing_tool").pyStr) ∧
    (execute_plan tsABC ([] ++ mkStep "missing_tool" [] :: []) 0).1.steps =
      (execute_plan tsABC [] 0).1.steps ∧
    ∃ le ∈ (execute_plan tsABC ([] ++ mkStep "missing_tool" [] :: []) 0).2.2,
      le.tool = Json.str "missing_tool" ∧ le.error? = some "Unknown tool" :=
  unknown_tool_aborts tsABC 0 [] [] (mkStep "missing_tool" []) (.str "missing_tool")
    (.arr []) [] rfl rfl rfl rfl rfl

-- ----------------------------------------------------------------------
-- C2: the "previous" sentinel substitution
-- ----------------------------------------------------------------------

/-- The trace returned by `execute_plan`, regardless of which branch
produced the result. -/
def LoopLog : (IterState σ ⊕ (String × IterState σ)) → List StepEntry
  | .inl st => st.log
  | .inr (_, st) => st.log

theorem execute_plan_steps {σ : Type} (ts : Toolset σ) (plan : List Json) (s : σ) :
    (execute_plan ts plan s).1.steps = LoopLog (runSteps ts (initState s) plan) := by
  rw [execute_plan]
  cases runSteps ts (initState s) plan with
  | inl st => rfl
  | inr fail => obtain ⟨e, st⟩ := fail; rfl

/-- `es` is a trace produced by successfully executing the first
`es.length` steps of the plan: each entry decodes from the corresponding
plan step, its recorded arguments are the sentinel-substituted raw
arguments, and the substituted previous result chains through the recorded
results. -/
def TraceMatches (prev : Json) : List Json → List StepEntry → Prop
  | _, [] => True
  | [], _ :: _ => False
  | stepJ :: plan', e :: es =>
      (∃ argsJ rawArgs,
        stepJ.getItem "tool" = .ok e.tool ∧
        stepJ.getItem "args" = .ok argsJ ∧
        argsJ.pyIter = .ok rawArgs ∧
        e.args = substPrevious prev rawArgs) ∧
      TraceMatches e.result plan' es

/-- The trace grown by the loop extends the incoming trace by entries
matching the executed plan prefix, chained from the incoming
`last_result`. -/
theorem runSteps_trace {σ : Type} (ts : Toolset σ) (plan : List Json) (st : IterState σ) :
    ∃ es, LoopLog (runSteps ts st plan) = st.log ++ es ∧ TraceMatches st.last plan es := by
  induction plan generalizing st with
  | nil => exact ⟨[], by simp [runSteps, LoopLog], trivial⟩
  | cons step rest ih =>
      cases hso : stepOnce ts st step with
      | inr fail =>
          obtain ⟨e, st2⟩ := fail
          refine ⟨[], ?_, trivial⟩
          simp [runSteps, hso, LoopLog, stepOnce_inr_log hso]
      | inl st2 =>
          obtain ⟨toolName, argsJ, rawArgs, result, s', tool, hTool, hArgs, hIter, hFind,
            hCall, hst2⟩ := stepOnce_inl_spec hso
          obtain ⟨es, hlog, htm⟩ := ih st2
          have hl2 : st2.log = st.log ++ [⟨toolName, substPrevious st.last rawArgs, result,
              step.getD "reasoning" (.str "")⟩] := by rw [hst2]
          have hlast : st2.last = result := by rw [hst2]
          refine ⟨⟨toolName, substPrevious st.last rawArgs, result,
                   step.getD "reasoning" (.str "")⟩ :: es, ?_, ?_, ?_⟩
          · simp only [runSteps, hso]
            rw [hlog, hl2]
            simp
          · exact ⟨argsJ, rawArgs, by rw [hTool], hArgs, hIter, rfl⟩
          · exact hlast ▸ htm

/-- Pointwise reading of `TraceMatches`: entry `i`'s arguments are the raw
arguments of plan step `i` with every case-insensitive `"previous"` replaced
by the result recorded for entry `i - 1` (`prev` for the first entry). -/
theorem traceMatches_index :
    ∀ {prev : Json} {plan : List Json} {es : List StepEntry}, TraceMatches prev plan es →
    ∀ i, i < es.length →
    ∃ stepJ argsJ rawArgs e prevI,
      plan.get? i = some stepJ ∧
      es.get? i = some e ∧
      stepJ.getItem "tool" = .ok e.tool ∧
      stepJ.getItem "args" = .ok argsJ ∧
      argsJ.pyIter = .ok rawArgs ∧
      ((i = 0 ∧ prevI = prev) ∨
        (∃ j eP, i = j + 1 ∧ es.get? j = some eP ∧ prevI = eP.result)) ∧
      e.args = substPrevious prevI rawArgs := by
  intro prev plan es
  induction es generalizing prev plan with
  | nil => intro _ i hi; rw [List.length_nil] at hi; omega
  | cons e es' ih =>
      intro htm i hi
      match plan, htm with
      | stepJ :: plan', ⟨⟨argsJ, rawArgs, hT, hA, hI, hsub⟩, htail⟩ =>
          cases i with
          | zero =>
              exact ⟨stepJ, argsJ, rawArgs, e, prev, rfl, rfl, hT, hA, hI,
                Or.inl ⟨rfl, rfl⟩, hsub⟩
          | succ j =>
              have hj : j < es'.length := by simpa using hi
              obtain ⟨stepJ', argsJ', rawArgs', e', prevI, hp, he, hT', hA', hI',
                hPrev, hsub'⟩ := ih htail j hj
              refine ⟨stepJ', argsJ', rawArgs', e', prevI, by simpa using hp,
                by simpa using he, hT', hA', hI', Or.inr ?_, hsub'⟩
              rcases hPrev with ⟨h0, hpeq⟩ | ⟨k, eP, hk, hePk, hpeq⟩
              · exact ⟨0, e, by omega, rfl, by rw [hpeq]⟩
              · exact ⟨k + 1, eP, by omega, by simpa using hePk, hpeq⟩

/-- C2: for every plan, every entry of the returned trace (which records
exactly the arguments passed to the invoked tool) holds the step's raw
arguments with every argument whose `str()` lowercases to `"previous"`
replaced by the result of the immediately preceding step — by `null`
(Python `None`) for the first step — and every other argument unchanged in
its original position. -/
theorem previous_sentinel_substitution {σ : Type} (ts : Toolset σ) (plan : List Json) (s : σ)
    (i : Nat) (hi : i < (execute_plan ts plan s).1.steps.length) :
    ∃ stepJ argsJ rawArgs e prevI,
      plan.get? i = some stepJ ∧
      (execute_plan ts plan s).1.steps.get? i = some e ∧
      stepJ.getItem "tool" = .ok e.tool ∧
      stepJ.getItem "args" = .ok argsJ ∧
      argsJ.pyIter = .ok rawArgs ∧
      ((i = 0 ∧ prevI = Json.null) ∨
        (∃ j eP, i = j + 1 ∧ (execute_plan ts plan s).1.steps.get? j = some eP ∧
          prevI = eP.result)) ∧
      e.args.length = rawArgs.length ∧
      ∀ j a, rawArgs.get? j = some a →
        e.args.get? j = some (if a.pyStr.toLower = "previous" then prevI else a) := by
  obtain ⟨es, hlog, htm⟩ := runSteps_trace ts plan (initState s)
  have hsteps : (execute_plan ts plan s).1.steps = es := by
    rw [execute_plan_steps, hlog]; rfl
  rw [hsteps] at hi ⊢
  obtain ⟨stepJ, argsJ, rawArgs, e, prevI, hp, he, hT, hA, hI, hPrev, hsub⟩ :=
    traceMatches_index htm i hi
  refine ⟨stepJ, argsJ, rawArgs, e, prevI, hp, he, hT, hA, hI, hPrev, ?_, ?_⟩
  · rw [hsub]; simp [substPrevious]
  · intro j a hja
    rw [hsub]
    simp only [substPrevious, List.get?_eq_getElem?, List.getElem?_map]
    rw [show rawArgs[j]? = some a from by simpa using hja]
    rfl

/-- Witness for `previous_sentinel_substitution`: in the two-step plan
`[A, C("Previous", "x")]` the entry recorded for step 1 receives `A`'s
result in place of the sentinel and `"x"` unchanged. -/
theorem previous_sentinel_substitution_witness :
    ∃ stepJ argsJ rawArgs e prevI,
      [mkStep "A" [], mkStep "C" [.str "Previous", .str "x"]].get? 1 = some stepJ ∧
      (execute_plan tsABC [mkStep "A" [], mkStep "C" [.str "Previous", .str "x"]] 0).1.steps.get? 1
        = some e ∧
      stepJ.getItem "tool" = .ok e.tool ∧
      stepJ.getItem "args" = .ok argsJ ∧
      argsJ.pyIter = .ok rawArgs ∧
      ((1 = 0 ∧ prevI = Json.null) ∨
        (∃ j eP, 1 = j + 1 ∧
          (execute_plan tsABC [mkStep "A" [], mkStep "C" [.str "Previous", .str "x"]]
              0).1.steps.get? j = some eP ∧
          prevI = eP.result)) ∧
      e.args.length = rawArgs.length ∧
      ∀ j a, rawArgs.get? j = some a →
        e.args.get? j = some (if a.pyStr.toLower = "previous" then prevI else a) :=
  previous_sentinel_substitution tsABC [mkStep "A" [], mkStep "C" [.str "Previous", .str "x"]]
    0 1 (by decide)

-- ----------------------------------------------------------------------
-- Wave-merge bookkeeping for the scheduler
-- ----------------------------------------------------------------------

/-- Closed form of dict assignment: the assigned key reads back the new
value, every other key is untouched. -/
theorem dictInsertNat_lookup (m : List (Nat × α)) (a : Nat) (v : α) (k : Nat) :
    (dictInsertNat m a v).lookup k = if k = a then
      (if (m.lookup a).isSome then some v else if k = a then some v else none)
    else m.lookup k := by
  have hmap : ∀ (m' : List (Nat × α)),
      (m'.map (fun p => if p.1 = a then (a, v) else p)).lookup k =
        if k = a then (m'.lookup a).map (fun _ => v) else m'.lookup k := by
    intro m'
    induction m' with
    | nil => by_cases h : k = a <;> simp [List.lookup, h]
    | cons p t ih =>
        obtain ⟨b, w⟩ := p
        simp only [List.map_cons]
        by_cases hba : b = a
        · subst hba
          rw [show (if (b, w).1 = b then (b, v) else (b, w)) = (b, v) from by simp]
          by_cases hk : k = b
          · subst hk
            simp [List.lookup]
          · have h1 : (k == b) = false := by simp [hk]
            simp [List.lookup, h1, ih, hk]
        · rw [show (if (b, w).1 = a then (a, v) else (b, w)) = (b, w) from by simp [hba]]
          by_cases hk : k = b
          · subst hk
            have h2 : ¬ k = a := hba
            simp [List.lookup, h2]
          · have h1 : (k == b) = false := by simp [hk]
            by_cases hka : k = a
            · subst hka
              simp [List.lookup, h1, ih]
            · simp [List.lookup, h1, ih, hka]
  unfold dictInsertNat
  by_cases hs : (m.lookup a).isSome
  · rw [if_pos hs, hmap]
    by_cases hk : k = a
    · obtain ⟨w, hw⟩ := Option.isSome_iff_exists.mp hs
      simp [hk, hs, hw]
    · simp [hk]
  · rw [if_neg hs, lookup_append]
    by_cases hk : k = a
    · subst hk
      have : m.lookup k = none := by
        cases h : m.lookup k with
        | none => rfl
        | some w => rw [h] at hs; exact absurd rfl hs
      simp [this, List.lookup]
    · have h1 : (k == a) = false := by simp [hk]
      cases h : m.lookup k <;> simp [h, hk, Option.orElse, List.lookup, h1]

/-- Dict assignment of a key not equal to `k` leaves `k`'s binding alone. -/
theorem dictInsertNat_lookup_ne (m : List (Nat × α)) (a : Nat) (v : α) (k : Nat)
    (h : k ≠ a) : (dictInsertNat m a v).lookup k = m.lookup k := by
  rw [dictInsertNat_lookup, if_neg h]

/-- Merging a wave's results: a key absent from the results keeps its old
binding. -/
theorem foldl_insert_lookup_not_mem (rs : List (Nat × α)) :
    ∀ (m : List (Nat × α)) (k : Nat), k ∉ rs.map Prod.fst →
    (rs.foldl (fun acc q => dictInsertNat acc q.1 q.2) m).lookup k = m.lookup k := by
  induction rs with
  | nil => intro m k _; rfl
  | cons q rs' ih =>
      intro m k hk
      have hk1 : k ≠ q.1 := by
        intro h; exact hk (by simp [h])
      have hk2 : k ∉ rs'.map Prod.fst := by
        intro h; exact hk (by simp [h])
      rw [List.foldl_cons, ih _ _ hk2, dictInsertNat_lookup_ne _ _ _ _ hk1]

/-- Merging preserves definedness of existing bindings. -/
theorem foldl_insert_isSome (rs : List (Nat × α)) :
    ∀ (m : List (Nat × α)) (k : Nat), (m.lookup k).isSome →
    ((rs.foldl (fun acc q => dictInsertNat acc q.1 q.2) m).lookup k).isSome := by
  induction rs with
  | nil => intro m k h; exact h
  | cons q rs' ih =>
      intro m k h
      rw [List.foldl_cons]
      refine ih _ _ ?_
      rw [dictInsertNat_lookup]
      by_cases hk : k = q.1 <;> simp [hk, h]

/-- Every merged key is defined after the merge. -/
theorem foldl_insert_isSome_of_mem (rs : List (Nat × α)) :
    ∀ (m : List (Nat × α)) (k : Nat), k ∈ rs.map Prod.fst →
    ((rs.foldl (fun acc q => dictInsertNat acc q.1 q.2) m).lookup k).isSome := by
  induction rs with
  | nil => intro m k h; simp at h
  | cons q rs' ih =>
      intro m k h
      rw [List.foldl_cons]
      by_cases hk : k ∈ rs'.map Prod.fst
      · exact ih _ _ hk
      · have hk1 : k = q.1 := by
          rcases (by simpa using h : k = q.1 ∨ k ∈ rs'.map Prod.fst) with h1 | h1
          · exact h1
          · exact absurd h1 hk
        refine foldl_insert_isSome _ _ _ ?_
        rw [dictInsertNat_lookup, if_pos hk1]
        by_cases hs : (m.lookup q.1).isSome <;> simp [hs, hk1]

/-- When the merged keys are fresh for `m` and mutually distinct — the
situation the scheduler is in, since ready steps come from `pending`, which
is disjoint from `completed` — the merge is plain concatenation. -/
theorem foldl_insert_eq_append (rs : List (Nat × α)) :
    ∀ (m : List (Nat × α)),
    (∀ q ∈ rs, m.lookup q.1 = none) → (rs.map Prod.fst).Nodup →
    rs.foldl (fun acc q => dictInsertNat acc q.1 q.2) m = m ++ rs := by
  induction rs with
  | nil => intro m _ _; simp
  | cons q rs' ih =>
      intro m hfresh hnodup
      have h1 : dictInsertNat m q.1 q.2 = m ++ [q] := by
        unfold dictInsertNat
        rw [hfresh q (by simp)]
        rfl
      rw [List.foldl_cons, h1, ih (m ++ [q]) ?_ (by simpa using hnodup.of_cons)]
      · simp
      · intro q' hq'
        rw [lookup_append, hfresh q' (by simp [hq'])]
        have : q'.1 ≠ q.1 := by
          simp only [List.map_cons, List.nodup_cons] at hnodup
          intro h
          exact hnodup.1 (h ▸ List.mem_map_of_mem Prod.fst hq')
        have hb : (q'.1 == q.1) = false := by simp [this]
        simp [List.lookup, hb, Option.orElse]

-- ----------------------------------------------------------------------
-- asyncio.gather (mapM) bookkeeping
-- ----------------------------------------------------------------------

/-- A wave that completed returned one result per dispatched ready step,
each produced by running that step against the wave-start `completed` map. -/
theorem mapM_ok_mem {β γ : Type} (f : β → Except String γ) :
    ∀ (xs : List β) (ys : List γ), xs.mapM f = .ok ys →
      ∀ y ∈ ys, ∃ x ∈ xs, f x = .ok y := by
  intro xs
  induction xs with
  | nil =>
      intro ys h y hy
      rw [← List.mapM'_eq_mapM] at h
      simp only [List.mapM'] at h
      cases h
      simp at hy
  | cons x xs' ih =>
      intro ys h y hy
      rw [← List.mapM'_eq_mapM] at h
      simp only [List.mapM'] at h
      cases hfx : f x with
      | error e =>
          rw [hfx, show ((Except.error e : Except String γ) >>= fun y =>
            (List.mapM' f xs' >>= fun ys => pure (y :: ys))) =
            (Except.error e : Except String (List γ)) from rfl] at h
          exact Except.noConfusion h
      | ok v =>
          rw [hfx, show ((Except.ok v : Except String γ) >>= fun y =>
            (List.mapM' f xs' >>= fun ys => pure (y :: ys))) =
            (List.mapM' f xs' >>= fun ys => pure (v :: ys)) from rfl,
            List.mapM'_eq_mapM] at h
          cases hrest : xs'.mapM f with
          | error e =>
              rw [hrest, show ((Except.error e : Except String (List γ)) >>= fun ys =>
                (pure (v :: ys) : Except String (List γ))) =
                (Except.error e : Except String (List γ)) from rfl] at h
              exact Except.noConfusion h
          | ok vs =>
              rw [hrest, show ((Except.ok vs : Except String (List γ)) >>= fun ys =>
                (pure (v :: ys) : Except String (List γ))) =
                Except.ok (v :: vs) from rfl] at h
              injection h with h
              subst h
              rcases List.mem_cons.mp hy with hy | hy
              · exact ⟨x, by simp, hy ▸ hfx⟩
              · obtain ⟨x', hx', hfx'⟩ := ih vs hrest y hy
                exact ⟨x', by simp [hx'], hfx'⟩

/-- The keys of a completed wave's results are the ready steps' indices, in
order, whenever the per-step runner preserves the step index. -/
theorem mapM_ok_keys {β α : Type} (getKey : β → Nat)
    (run : β → Except String (Nat × α))
    (hrun : ∀ p q, run p = .ok q → q.1 = getKey p) :
    ∀ (xs : List β) (ys : List (Nat × α)), xs.mapM run = .ok ys →
      ys.map Prod.fst = xs.map getKey := by
  intro xs
  induction xs with
  | nil =>
      intro ys h
      rw [← List.mapM'_eq_mapM] at h
      simp only [List.mapM'] at h
      cases h
      rfl
  | cons x xs' ih =>
      intro ys h
      rw [← List.mapM'_eq_mapM] at h
      simp only [List.mapM'] at h
      cases hfx : run x with
      | error e =>
          rw [hfx, show ((Except.error e : Except String (Nat × α)) >>= fun y =>
            (List.mapM' run xs' >>= fun ys => pure (y :: ys))) =
            (Except.error e : Except String (List (Nat × α))) from rfl] at h
          exact Except.noConfusion h
      | ok v =>
          rw [hfx, show ((Except.ok v : Except String (Nat × α)) >>= fun y =>
            (List.mapM' run xs' >>= fun ys => pure (y :: ys))) =
            (List.mapM' run xs' >>= fun ys => pure (v :: ys)) from rfl,
            List.mapM'_eq_mapM] at h
          cases hrest : xs'.mapM run with
          | error e =>
              rw [hrest, show ((Except.error e : Except String (List (Nat × α))) >>= fun ys =>
                (pure (v :: ys) : Except String (List (Nat × α)))) =
                (Except.error e : Except String (List (Nat × α))) from rfl] at h
              exact Except.noConfusion h
          | ok vs =>
              rw [hrest, show ((Except.ok vs : Except String (List (Nat × α))) >>= fun ys =>
                (pure (v :: ys) : Except String (List (Nat × α)))) =
                Except.ok (v :: vs) from rfl] at h
              injection h with h
              subst h
              simp [ih vs hrest, hrun x v hfx]

/-- A wave whose per-step dispatch never raises completes with one result
per ready step, each computed from that step alone. -/
theorem mapM_total {β γ : Type} (f : β → Except String γ)
    (htotal : ∀ x, ∃ y, f x = .ok y) :
    ∀ (xs : List β), ∃ ys, xs.mapM f = .ok ys ∧ ys.length = xs.length ∧
      ∀ i x, xs.get? i = some x → ∃ y, f x = .ok y ∧ ys.get? i = some y := by
  intro xs
  induction xs with
  | nil =>
      refine ⟨[], by rw [← List.mapM'_eq_mapM]; rfl, rfl, ?_⟩
      intro i x hx
      simp at hx
  | cons x xs' ih =>
      obtain ⟨y, hy⟩ := htotal x
      obtain ⟨ys, hys, hlen, hpt⟩ := ih
      refine ⟨y :: ys, ?_, by simp [hlen], ?_⟩
      · rw [← List.mapM'_eq_mapM]
        simp only [List.mapM']
        rw [hy, List.mapM'_eq_mapM, hys]
        rfl
      · intro i x' hx'
        cases i with
        | zero =>
            simp only [List.get?] at hx'
            cases hx'
            exact ⟨y, hy, rfl⟩
        | succ j =>
            simp only [List.get?] at hx' ⊢
            exact hpt j x' hx'

/-- `mapM` over `Option` of a nowhere-`none` function succeeds pointwise —
the comprehension `[completed_results[i] for i in range(n)]` when every
step completed. -/
theorem mapM_option_total {β γ : Type} (f : β → Option γ)
    : ∀ (xs : List β), (∀ x ∈ xs, (f x).isSome) →
      ∃ ys, xs.mapM f = some ys ∧ ys.length = xs.length ∧
        ∀ i x, xs.get? i = some x → ys.get? i = f x := by
  intro xs
  induction xs with
  | nil =>
      intro _
      refine ⟨[], by rw [← List.mapM'_eq_mapM]; rfl, rfl, ?_⟩
      intro i x hx
      simp at hx
  | cons x xs' ih =>
      intro hall
      obtain ⟨y, hy⟩ := Option.isSome_iff_exists.mp (hall x (by simp))
      obtain ⟨ys, hys, hlen, hpt⟩ := ih (fun x' hx' => hall x' (by simp [hx']))
      refine ⟨y :: ys, ?_, by simp [hlen], ?_⟩
      · rw [← List.mapM'_eq_mapM]
        simp only [List.mapM']
        rw [hy, List.mapM'_eq_mapM, hys]
        rfl
      · intro i x' hx'
        cases i with
        | zero =>
            simp only [List.get?] at hx'
            cases hx'
            simp [hy]
        | succ j =>
            simp only [List.get?] at hx' ⊢
            exact hpt j x' hx'

/-- A key cannot be in both halves of the ready/remaining partition when
the pending indices are distinct. -/
theorem partition_keys_disjoint {α : Type} (pending : List (Nat × α)) (p : Nat × α → Bool)
    (hnodup : (pending.map Prod.fst).Nodup) (k : Nat)
    (h1 : k ∈ (pending.filter p).map Prod.fst)
    (h2 : k ∈ (pending.filter (fun x => !p x)).map Prod.fst) : False := by
  obtain ⟨q1, hq1, hk1⟩ := List.mem_map.mp h1
  obtain ⟨q2, hq2, hk2⟩ := List.mem_map.mp h2
  rw [List.mem_filter] at hq1 hq2
  have heq : q1 = q2 :=
    List.inj_on_of_nodup_map hnodup hq1.1 hq2.1 (by rw [hk1, hk2])
  rw [heq] at hq1
  rw [hq1.2] at hq2
  simp at hq2

-- ----------------------------------------------------------------------
-- The scheduler's run invariant
-- ----------------------------------------------------------------------

/-- Invariant of a scheduler run from any wave boundary (both workflow
copies instantiate this through `waveLoop`): when the completed map and the
pending list have mutually distinct, disjoint keys, a completed run (a)
keeps result keys distinct, (b) never overwrites a completed entry, (c)
introduces keys only for pending steps, and (d) every entry it adds at
index `k` was produced by dispatching exactly the pending step paired with
`k`, with its dependencies ready in the snapshot `C` it was dispatched
against, all of whose entries survive unchanged into the final result. -/
theorem waveLoop_spec {α : Type}
    (run : List (Nat × α) → Nat × AgentStep → Except String (Nat × α))
    (hrun : ∀ c p q, run c p = .ok q → q.1 = p.1) :
    ∀ (fuel : Nat) (completed : List (Nat × α)) (pending : List (Nat × AgentStep))
      (res : List (Nat × α)),
      (completed.map Prod.fst).Nodup →
      (pending.map Prod.fst).Nodup →
      (∀ k, k ∈ pending.map Prod.fst → completed.lookup k = none) →
      waveLoop run fuel completed pending = .ok res →
      (res.map Prod.fst).Nodup ∧
      (∀ k v, completed.lookup k = some v → res.lookup k = some v) ∧
      (∀ k, k ∈ res.map Prod.fst → k ∈ completed.map Prod.fst ∨ k ∈ pending.map Prod.fst) ∧
      (∀ k v, res.lookup k = some v →
        completed.lookup k = some v ∨
        ∃ st C, (k, st) ∈ pending ∧ depsReady C (k, st) = true ∧
          run C (k, st) = .ok (k, v) ∧
          (∀ k2 v2, C.lookup k2 = some v2 → res.lookup k2 = some v2)) := by
  intro fuel
  induction fuel with
  | zero =>
      intro completed pending res hc hp hdisj h
      simp only [waveLoop] at h
      cases h
      exact ⟨hc, fun _ _ hv => hv, fun _ hk => Or.inl hk, fun _ _ hv => Or.inl hv⟩
  | succ fuel ih =>
      intro completed pending res hc hp hdisj h
      rw [waveLoop] at h
      by_cases hpe : pending.isEmpty
      · rw [if_pos hpe] at h
        cases h
        exact ⟨hc, fun _ _ hv => hv, fun _ hk => Or.inl hk, fun _ _ hv => Or.inl hv⟩
      rw [if_neg hpe] at h
      by_cases hre : (pending.filter (depsReady completed)).isEmpty
      · rw [if_pos hre] at h
        cases h
        exact ⟨hc, fun _ _ hv => hv, fun _ hk => Or.inl hk, fun _ _ hv => Or.inl hv⟩
      rw [if_neg hre] at h
      cases hmapM : (pending.filter (depsReady completed)).mapM (run completed) with
      | error e =>
          rw [hmapM, show ((Except.error e : Except String (List (Nat × α))) >>= fun results =>
            waveLoop run fuel
              (results.foldl (fun m q => dictInsertNat m q.1 q.2) completed)
              (pending.filter (fun p => !(depsReady completed p)))) =
            (Except.error e : Except String (List (Nat × α))) from rfl] at h
          exact Except.noConfusion h
      | ok results =>
          rw [hmapM, show ((Except.ok results : Except String (List (Nat × α))) >>= fun results =>
            waveLoop run fuel
              (results.foldl (fun m q => dictInsertNat m q.1 q.2) completed)
              (pending.filter (fun p => !(depsReady completed p)))) =
            waveLoop run fuel
              (results.foldl (fun m q => dictInsertNat m q.1 q.2) completed)
              (pending.filter (fun p => !(depsReady completed p))) from rfl] at h
          -- notation for the wave's pieces
          have hkeys : results.map Prod.fst =
              (pending.filter (depsReady completed)).map Prod.fst :=
            mapM_ok_keys Prod.fst (run completed)
              (fun p q hq => hrun completed p q hq) _ _ hmapM
          have hsubR : ∀ p ∈ pending.filter (depsReady completed), p ∈ pending :=
            fun p hp => (List.mem_filter.mp hp).1
          have hsubRem : ∀ p ∈ pending.filter (fun p => !(depsReady completed p)), p ∈ pending :=
            fun p hp => (List.mem_filter.mp hp).1
          have hRkeys : ∀ k, k ∈ results.map Prod.fst → k ∈ pending.map Prod.fst := by
            intro k hk
            rw [hkeys] at hk
            obtain ⟨p, hp, hpk⟩ := List.mem_map.mp hk
            exact hpk ▸ List.mem_map_of_mem Prod.fst (hsubR p hp)
          have hfresh : ∀ q ∈ results, completed.lookup q.1 = none := by
            intro q hq
            exact hdisj q.1 (hRkeys q.1 (List.mem_map_of_mem Prod.fst hq))
          have hnodupR : (results.map Prod.fst).Nodup := by
            rw [hkeys]
            exact hp.sublist ((List.filter_sublist pending).map Prod.fst)
          have hmerge : results.foldl (fun m q => dictInsertNat m q.1 q.2) completed =
              completed ++ results :=
            foldl_insert_eq_append results completed hfresh hnodupR
          rw [hmerge] at h
          -- invariants for the next boundary
          have hc' : ((completed ++ results).map Prod.fst).Nodup := by
            rw [List.map_append]
            refine hc.append hnodupR ?_
            intro k hk1 hk2
            have := hdisj k (hRkeys k hk2)
            have hmem := (lookup_isSome_iff completed k).mpr hk1
            rw [this] at hmem
            simp at hmem
          have hp' : ((pending.filter (fun p => !(depsReady completed p))).map Prod.fst).Nodup :=
            hp.sublist ((List.filter_sublist pending).map Prod.fst)
          have hdisj' : ∀ k, k ∈ (pending.filter (fun p => !(depsReady completed p))).map Prod.fst →
              (completed ++ results).lookup k = none := by
            intro k hk
            have hk1 : completed.lookup k = none := by
              obtain ⟨p, hp1, hpk⟩ := List.mem_map.mp hk
              exact hdisj k (hpk ▸ List.mem_map_of_mem Prod.fst (hsubRem p hp1))
            have hk2 : results.lookup k = none := by
              refine lookup_eq_none_of_not_mem ?_
              intro hmem
              rw [hkeys] at hmem
              exact partition_keys_disjoint pending (depsReady completed) hp k hmem hk
            rw [lookup_append, hk1, hk2]
            rfl
          obtain ⟨hN, hP, hK, hV⟩ := ih (completed ++ results)
            (pending.filter (fun p => !(depsReady completed p))) res hc' hp' hdisj' h
          have hpersist : ∀ k v, completed.lookup k = some v → res.lookup k = some v := by
            intro k v hv
            refine hP k v ?_
            rw [lookup_append, hv]
            rfl
          refine ⟨hN, hpersist, ?_, ?_⟩
          · intro k hk
            rcases hK k hk with hk | hk
            · rw [List.map_append] at hk
              rcases List.mem_append.mp hk with hk | hk
              · exact Or.inl hk
              · exact Or.inr (hRkeys k hk)
            · obtain ⟨p, hp1, hpk⟩ := List.mem_map.mp hk
              exact Or.inr (hpk ▸ List.mem_map_of_mem Prod.fst (hsubRem p hp1))
          · intro k v hv
            rcases hV k v hv with hm | ⟨st, C, hmem, hdr, hrune, hsub⟩
            · rw [lookup_append] at hm
              cases hck : completed.lookup k with
              | some w =>
                  rw [hck] at hm
                  simp only [Option.orElse] at hm
                  exact Or.inl hm
              | none =>
                  rw [hck] at hm
                  simp only [Option.orElse] at hm
                  obtain ⟨p, hpr, hrunp⟩ :=
                    mapM_ok_mem (run completed) _ results hmapM (k, v)
                      (mem_of_lookup_eq_some hm)
                  have hpk : p.1 = k := (hrun completed p (k, v) hrunp).symm
                  have hpeq : p = (k, p.2) := by
                    rw [← hpk]
                  rw [hpeq] at hpr hrunp
                  refine Or.inr ⟨p.2, completed, hsubR _ hpr, ?_, hrunp, hpersist⟩
                  exact (List.mem_filter.mp hpr).2
            · exact Or.inr ⟨st, C, hsubRem _ hmem, hdr, hrune, hsub⟩

-- ----------------------------------------------------------------------
-- Satisfiable dependency graphs and scheduler termination
-- ----------------------------------------------------------------------

/-- Placeholder step for out-of-range index reads; never observed on
in-range indices. -/
def defaultStep : AgentStep := ⟨"", "", []⟩

/-- The indices whose dependencies can be satisfied within `k` waves:
round `k + 1` keeps every index already reachable and adds every index all
of whose dependencies are reachable in `k` rounds. -/
def reachable (steps : List AgentStep) : Nat → List Nat
  | 0 => []
  | k + 1 =>
      (List.range steps.length).filter (fun i =>
        (reachable steps k).contains i ||
        ((steps.getD i defaultStep).dependencies.all
          (fun d => (reachable steps k).contains d)))

/-- The dependency graph is satisfiable: every step index eventually
becomes dispatchable (within `steps.length` rounds, which suffice whenever
any number of rounds does). -/
def Satisfiable (steps : List AgentStep) : Prop :=
  ∀ i, i < steps.length → i ∈ reachable steps steps.length

/-- On a satisfiable graph with a never-raising per-step dispatch, the wave
loop terminates by exhausting `pending` — never through the stall break —
and completes every step index. -/
theorem waveLoop_completes {α : Type}
    (run : List (Nat × α) → Nat × AgentStep → Except String (Nat × α))
    (hrun : ∀ c p q, run c p = .ok q → q.1 = p.1)
    (htotal : ∀ c p, ∃ q, run c p = .ok q)
    (steps : List AgentStep) (hsat : Satisfiable steps) :
    ∀ (fuel : Nat) (completed : List (Nat × α)) (pending : List (Nat × AgentStep)),
      pending.length < fuel →
      (pending.map Prod.fst).Nodup →
      (∀ p ∈ pending, steps.get? p.1 = some p.2) →
      (∀ k, k ∈ pending.map Prod.fst → completed.lookup k = none) →
      (∀ i, i < steps.length → (completed.lookup i).isSome ∨ i ∈ pending.map Prod.fst) →
      ∃ res, waveLoop run fuel completed pending = .ok res ∧
        ∀ i, i < steps.length → (res.lookup i).isSome := by
  intro fuel
  induction fuel with
  | zero =>
      intro completed pending hlen
      omega
  | succ fuel ih =>
      intro completed pending hlen hnodup hpairs hdisj hcov
      by_cases hpe : pending.isEmpty
      · refine ⟨completed, by rw [waveLoop, if_pos hpe], ?_⟩
        intro i hi
        rcases hcov i hi with hs | hmem
        · exact hs
        · rw [List.isEmpty_iff] at hpe
          rw [hpe] at hmem
          simp at hmem
      by_cases hre : (pending.filter (depsReady completed)).isEmpty
      · -- stall is impossible on a satisfiable graph: every reachable index
        -- would already be completed, including some pending one
        exfalso
        have hreach : ∀ m, ∀ i, i ∈ reachable steps m → (completed.lookup i).isSome := by
          intro m
          induction m with
          | zero => intro i hi; simp [reachable] at hi
          | succ m ihm =>
              intro i hi
              simp only [reachable, List.mem_filter] at hi
              obtain ⟨hirange, hcond⟩ := hi
              have hin : i < steps.length := List.mem_range.mp hirange
              have hcond' : (reachable steps m).contains i = true ∨
                  ((steps.getD i defaultStep).dependencies.all
                    (fun d => (reachable steps m).contains d)) = true := by
                simpa using hcond
              rcases hcond' with hcase | hcase
              · exact ihm i (by simpa using hcase)
              · rcases hcov i hin with hs | hmem
                · exact hs
                · obtain ⟨p, hp, hpk⟩ := List.mem_map.mp hmem
                  have hget : steps.get? i = some p.2 := hpk ▸ hpairs p hp
                  have hgetD : steps.getD i defaultStep = p.2 := by
                    simp [List.getD_eq_getElem?_getD, ← List.get?_eq_getElem?, hget]
                  have hready : depsReady completed p = true := by
                    unfold depsReady
                    rw [List.all_eq_true]
                    intro d hd
                    have hd' : d ∈ (steps.getD i defaultStep).dependencies := hgetD ▸ hd
                    have : (reachable steps m).contains d = true :=
                      (List.all_eq_true.mp (by simpa using hcase)) d hd'
                    exact ihm d (by simpa using this)
                  have : p ∈ pending.filter (depsReady completed) :=
                    List.mem_filter.mpr ⟨hp, hready⟩
                  rw [List.isEmpty_iff] at hre
                  rw [hre] at this
                  simp at this
        obtain ⟨p0, hp0⟩ : ∃ p, p ∈ pending := by
          cases hp : pending with
          | nil => rw [hp] at hpe; simp at hpe
          | cons a t => exact ⟨a, hp ▸ List.mem_cons_self a t⟩
        have hi0 : p0.1 < steps.length := (List.get?_eq_some.mp (hpairs p0 hp0)).1
        have := hreach steps.length p0.1 (hsat p0.1 hi0)
        rw [hdisj p0.1 (List.mem_map_of_mem Prod.fst hp0)] at this
        simp at this
      · -- a live wave: dispatch the ready steps and recurse
        obtain ⟨results, hmapM, hlenR, hptR⟩ :=
          mapM_total (run completed) (htotal completed) (pending.filter (depsReady completed))
        have hkeys : results.map Prod.fst =
            (pending.filter (depsReady completed)).map Prod.fst :=
          mapM_ok_keys Prod.fst (run completed)
            (fun p q hq => hrun completed p q hq) _ _ hmapM
        have hlen' : (pending.filter (fun p => !(depsReady completed p))).length < fuel := by
          have hsplit := @List.length_eq_length_filter_add _ pending (depsReady completed)
          have hrlen : 0 < (pending.filter (depsReady completed)).length := by
            cases hf : pending.filter (depsReady completed) with
            | nil => rw [hf] at hre; simp at hre
            | cons a t => simp
          omega
        have hnodup' :
            ((pending.filter (fun p => !(depsReady completed p))).map Prod.fst).Nodup :=
          hnodup.sublist ((List.filter_sublist pending).map Prod.fst)
        have hpairs' : ∀ p ∈ pending.filter (fun p => !(depsReady completed p)),
            steps.get? p.1 = some p.2 :=
          fun p hp => hpairs p (List.mem_filter.mp hp).1
        have hdisj' : ∀ k, k ∈ (pending.filter (fun p => !(depsReady completed p))).map Prod.fst →
            ((results.foldl (fun m q => dictInsertNat m q.1 q.2) completed).lookup k) = none := by
          intro k hk
          have hk1 : completed.lookup k = none := by
            obtain ⟨p, hp1, hpk⟩ := List.mem_map.mp hk
            exact hdisj k (hpk ▸ List.mem_map_of_mem Prod.fst (List.mem_filter.mp hp1).1)
          have hk2 : k ∉ results.map Prod.fst := by
            intro hmem
            rw [hkeys] at hmem
            exact partition_keys_disjoint pending (depsReady completed) hnodup k hmem hk
          rw [foldl_insert_lookup_not_mem results completed k hk2]
          exact hk1
        have hcov' : ∀ i, i < steps.length →
            ((results.foldl (fun m q => dictInsertNat m q.1 q.2) completed).lookup i).isSome ∨
            i ∈ (pending.filter (fun p => !(depsReady completed p))).map Prod.fst := by
          intro i hi
          rcases hcov i hi with hs | hmem
          · exact Or.inl (foldl_insert_isSome results completed i hs)
          · obtain ⟨p, hp1, hpk⟩ := List.mem_map.mp hmem
            cases hd : depsReady completed p with
            | true =>
                refine Or.inl (foldl_insert_isSome_of_mem results completed i ?_)
                rw [hkeys]
                exact hpk ▸ List.mem_map_of_mem Prod.fst (List.mem_filter.mpr ⟨hp1, hd⟩)
            | false =>
                refine Or.inr ?_
                exact hpk ▸ List.mem_map_of_mem Prod.fst
                  (List.mem_filter.mpr ⟨hp1, by simp [hd]⟩)
        obtain ⟨res, hres, hcovres⟩ := ih
          (results.foldl (fun m q => dictInsertNat m q.1 q.2) completed)
          (pending.filter (fun p => !(depsReady completed p)))
          hlen' hnodup' hpairs' hdisj' hcov'
        refine ⟨res, ?_, hcovres⟩
        rw [waveLoop, if_neg hpe, if_neg hre, hmapM,
          show ((Except.ok results : Except String (List (Nat × α))) >>= fun results =>
            waveLoop run fuel
              (results.foldl (fun m q => dictInsertNat m q.1 q.2) completed)
              (pending.filter (fun p => !(depsReady completed p)))) =
            waveLoop run fuel
              (results.foldl (fun m q => dictInsertNat m q.1 q.2) completed)
              (pending.filter (fun p => !(depsReady completed p))) from rfl]
        exact hres

-- ----------------------------------------------------------------------
-- Per-file step runners: index preservation and totality
-- ----------------------------------------------------------------------

theorem execute_step_dyn_fst (call : AgentCall) (c : List (Nat × AgentExecution))
    (p : Nat × AgentStep) (q : Nat × AgentExecution)
    (h : execute_step_dyn call c p = .ok q) : q.1 = p.1 := by
  simp only [execute_step_dyn] at h
  repeat' split at h
  all_goals first
    | exact Except.noConfusion h
    | (injection h with h; rw [← h])

theorem execute_step_mini_fst (call : AgentCall) (c : List (Nat × MiniRecord))
    (p : Nat × AgentStep) (q : Nat × MiniRecord)
    (h : execute_step_mini call c p = .ok q) : q.1 = p.1 := by
  simp only [execute_step_mini] at h
  repeat' split at h
  all_goals first
    | exact Except.noConfusion h
    | (injection h with h; rw [← h])

theorem execute_step_dyn_total (call : String → String → AgentResult)
    (c : List (Nat × AgentExecution)) (p : Nat × AgentStep) :
    ∃ q, execute_step_dyn (fun a t => .ok (call a t)) c p = .ok q := by
  unfold execute_step_dyn
  by_cases hk : knownAgents.contains p.2.agent
  · rw [if_pos hk]
    exact ⟨_, rfl⟩
  · rw [if_neg hk]
    exact ⟨_, rfl⟩

theorem execute_step_mini_total (call : String → String → AgentResult)
    (c : List (Nat × MiniRecord)) (p : Nat × AgentStep) :
    ∃ q, execute_step_mini (fun a t => .ok (call a t)) c p = .ok q := by
  unfold execute_step_mini
  by_cases hk : knownAgents.contains p.2.agent
  · rw [if_pos hk]
    exact ⟨_, rfl⟩
  · rw [if_neg hk]
    exact ⟨_, rfl⟩

-- ----------------------------------------------------------------------
-- C10: each step dispatched at most once, no completed entry overwritten
-- ----------------------------------------------------------------------

/-- C10: from any wave boundary whose completed map and pending list carry
duplicate-free, disjoint key sets (as the run's initial state does), a
finished scheduler run has duplicate-free result keys, preserves every
completed entry unchanged (no later wave overwrites it), adds keys only for
pending steps, and the result reported at index `k` is either the
boundary's own entry or was produced by dispatching exactly the pending
step paired with `k` — so every step is dispatched at most once and result
`i` always comes from step `i`. -/
theorem scheduler_dispatches_each_step_once {α : Type}
    (run : List (Nat × α) → Nat × AgentStep → Except String (Nat × α))
    (hrun : ∀ c p q, run c p = .ok q → q.1 = p.1)
    (fuel : Nat) (completed : List (Nat × α)) (pending : List (Nat × AgentStep))
    (res : List (Nat × α))
    (hc : (completed.map Prod.fst).Nodup)
    (hp : (pending.map Prod.fst).Nodup)
    (hdisj : ∀ k, k ∈ pending.map Prod.fst → completed.lookup k = none)
    (h : waveLoop run fuel completed pending = .ok res) :
    (res.map Prod.fst).Nodup ∧
    (∀ k v, completed.lookup k = some v → res.lookup k = some v) ∧
    (∀ k, k ∈ res.map Prod.fst → k ∈ completed.map Prod.fst ∨ k ∈ pending.map Prod.fst) ∧
    (∀ k v, res.lookup k = some v →
      completed.lookup k = some v ∨
      ∃ st C, (k, st) ∈ pending ∧ run C (k, st) = .ok (k, v)) := by
  obtain ⟨hN, hP, hK, hV⟩ := waveLoop_spec run hrun fuel completed pending res hc hp hdisj h
  refine ⟨hN, hP, hK, ?_⟩
  intro k v hv
  rcases hV k v hv with h1 | ⟨st, C, hmem, _, hrune, _⟩
  · exact Or.inl h1
  · exact Or.inr ⟨st, C, hmem, hrune⟩

/-- Witness for `scheduler_dispatches_each_step_once` on a two-step
chain. -/
theorem scheduler_dispatches_each_step_once_witness :
    (([(0, ()), (1, ())] : List (Nat × Unit)).map Prod.fst).Nodup ∧
    (∀ k v, (([] : List (Nat × Unit)).lookup k = some v) →
      ([(0, ()), (1, ())] : List (Nat × Unit)).lookup k = some v) ∧
    (∀ k, k ∈ ([(0, ()), (1, ())] : List (Nat × Unit)).map Prod.fst →
      k ∈ ([] : List (Nat × Unit)).map Prod.fst ∨
      k ∈ ([(0, ⟨"math", "a", []⟩), (1, ⟨"string", "b", [0]⟩)] :
        List (Nat × AgentStep)).map Prod.fst) ∧
    (∀ k v, ([(0, ()), (1, ())] : List (Nat × Unit)).lookup k = some v →
      ([] : List (Nat × Unit)).lookup k = some v ∨
      ∃ st C, (k, st) ∈ ([(0, ⟨"math", "a", []⟩), (1, ⟨"string", "b", [0]⟩)] :
          List (Nat × AgentStep)) ∧
        (fun (_ : List (Nat × Unit)) (p : Nat × AgentStep) =>
            (Except.ok (p.1, ()) : Except String (Nat × Unit)))
          C (k, st) = .ok (k, v)) :=
  scheduler_dispatches_each_step_once
    (fun _ p => Except.ok (p.1, ())) (fun _ _ q h => by injection h with h; rw [← h])
    3 [] [(0, ⟨"math", "a", []⟩), (1, ⟨"string", "b", [0]⟩)] [(0, ()), (1, ())]
    (by decide) (by decide) (by decide) rfl

-- ----------------------------------------------------------------------
-- C9: what happens to exceptions inside a wave
-- ----------------------------------------------------------------------

/-- A dispatch that raises (as an agent whose internal plan parsing raises
`ValueError` does: agents call `execute_plan` with no `try` around it). -/
def boomCall : AgentCall := fun a _ =>
  if a = "math" then .error "ValueError: boom"
  else .ok { final_result := "done" }

/-- C9 (counterexample): an exception raised by a single step's dispatch is
NOT captured: `execute_step` has no handler, so `asyncio.gather` re-raises
it out of the wave and the whole scheduler call fails — the sibling
"string" step's result is lost rather than recorded. -/
theorem step_exception_propagates_counterexample :
    execute_dynamic_task boomCall [⟨"math", "a", []⟩, ⟨"string", "b", []⟩] =
      .error "ValueError: boom" ∧
    execute_mini_plan boomCall [⟨"math", "a", []⟩, ⟨"string", "b", []⟩] =
      .error "ValueError: boom" :=
  ⟨rfl, rfl⟩

/-- C9 (amended): errors that reach the scheduler as in-band values (as
tool exceptions do, the agents' plan executor having converted them to a
structured `error` field) are isolated per step in both scheduler copies:
when no dispatch raises, the wave completes with exactly one entry per
ready step, each computed from the wave-start snapshot and that step
alone, and an unknown agent becomes an in-band error entry without any
dispatch.  But the two copies record the in-band value differently:
`flyte_dynamic`'s `execute_step` stores the agent's `error` field as the
step's error value, while `flyte_react_planner`'s `execute_step` discards
it — its record keeps only the observation built from
`final_result`/`summary`, so the error string never enters the record.
And an exception actually raised by a dispatch is not caught in either
copy (see the counterexample). -/
theorem wave_inband_errors_isolated (call : String → String → AgentResult)
    (completed : List (Nat × AgentExecution)) (completedM : List (Nat × MiniRecord))
    (ready : List (Nat × AgentStep)) :
    (∃ results,
      ready.mapM (execute_step_dyn (fun a t => .ok (call a t)) completed) = .ok results ∧
      results.length = ready.length ∧
      ∀ i p, ready.get? i = some p →
        ∃ q, execute_step_dyn (fun a t => .ok (call a t)) completed p = .ok q ∧
          results.get? i = some q) ∧
    (∀ p : Nat × AgentStep, knownAgents.contains p.2.agent = true →
      execute_step_dyn (fun a t => .ok (call a t)) completed p =
        .ok (p.1, { agent := p.2.agent, task := p.2.task,
                    result_summary :=
                      if p.2.agent = "web_search" then
                        (call p.2.agent (dynAugmentTask completed p.2)).summary?.getD
                          (call p.2.agent (dynAugmentTask completed p.2)).final_result
                      else (call p.2.agent (dynAugmentTask completed p.2)).final_result,
                    result_full := (call p.2.agent (dynAugmentTask completed p.2)).final_result,
                    error := (call p.2.agent (dynAugmentTask completed p.2)).error })) ∧
    (∀ (anyCall : AgentCall) (p : Nat × AgentStep),
      knownAgents.contains p.2.agent = false →
      execute_step_dyn anyCall completed p =
        .ok (p.1, { agent := p.2.agent, task := p.2.task, result_summary := "",
                    result_full := "", error := "Unknown agent: " ++ p.2.agent })) ∧
    (∃ results,
      ready.mapM (execute_step_mini (fun a t => .ok (call a t)) completedM) = .ok results ∧
      results.length = ready.length ∧
      ∀ i p, ready.get? i = some p →
        ∃ q, execute_step_mini (fun a t => .ok (call a t)) completedM p = .ok q ∧
          results.get? i = some q) ∧
    (∀ p : Nat × AgentStep, knownAgents.contains p.2.agent = true →
      execute_step_mini (fun a t => .ok (call a t)) completedM p =
        .ok (p.1, { agent := p.2.agent, task := p.2.task,
                    observation :=
                      if p.2.agent = "web_search" then
                        (call p.2.agent (miniAugmentTask completedM p.2)).summary?.getD
                          (call p.2.agent (miniAugmentTask completedM p.2)).final_result
                      else (call p.2.agent (miniAugmentTask completedM p.2)).final_result })) ∧
    (∀ (anyCall : AgentCall) (p : Nat × AgentStep),
      knownAgents.contains p.2.agent = false →
      execute_step_mini anyCall completedM p =
        .ok (p.1, { agent := p.2.agent, task := p.2.task,
                    observation := "ERROR: Unknown agent '" ++ p.2.agent ++ "'" })) := by
  refine ⟨?_, ?_, ?_, ?_, ?_, ?_⟩
  · obtain ⟨results, h1, h2, h3⟩ :=
      mapM_total _ (execute_step_dyn_total call completed) ready
    exact ⟨results, h1, h2, fun i p hp => h3 i p hp⟩
  · intro p hk
    unfold execute_step_dyn
    rw [if_pos hk]
  · intro anyCall p hk
    unfold execute_step_dyn
    rw [if_neg (by rw [hk]; exact Bool.false_ne_true)]
  · obtain ⟨results, h1, h2, h3⟩ :=
      mapM_total _ (execute_step_mini_total call completedM) ready
    exact ⟨results, h1, h2, fun i p hp => h3 i p hp⟩
  · intro p hk
    unfold execute_step_mini
    rw [if_pos hk]
  · intro anyCall p hk
    unfold execute_step_mini
    rw [if_neg (by rw [hk]; exact Bool.false_ne_true)]

/-- Witness for `wave_inband_errors_isolated`, exercising its implications
at concrete steps: a known agent whose result carries the in-band error
`"ERR"` (recorded by the dynamic copy, discarded by the react-planner
copy) and an unknown agent under a dispatch that would raise if called. -/
theorem wave_inband_errors_isolated_witness :
    execute_step_dyn
        (fun a t => .ok ((fun x y =>
          ({ final_result := x ++ "(" ++ y ++ ")", error := "ERR" } : AgentResult)) a t))
        [] (0, ⟨"math", "a", []⟩) =
      .ok (0, { agent := "math", task := "a", result_summary := "math(a)",
                result_full := "math(a)", error := "ERR" }) ∧
    execute_step_dyn (fun _ _ => .error "boom") [] (1, ⟨"nope", "b", []⟩) =
      .ok (1, { agent := "nope", task := "b", result_summary := "",
                result_full := "", error := "Unknown agent: nope" }) ∧
    execute_step_mini
        (fun a t => .ok ((fun x y =>
          ({ final_result := x ++ "(" ++ y ++ ")", error := "ERR" } : AgentResult)) a t))
        [] (0, ⟨"math", "a", []⟩) =
      .ok (0, { agent := "math", task := "a", observation := "math(a)" }) ∧
    execute_step_mini (fun _ _ => .error "boom") [] (1, ⟨"nope", "b", []⟩) =
      .ok (1, { agent := "nope", task := "b",
                observation := "ERROR: Unknown agent 'nope'" }) := by
  have h := wave_inband_errors_isolated
    (fun x y => ({ final_result := x ++ "(" ++ y ++ ")", error := "ERR" } : AgentResult))
    [] [] [(0, ⟨"math", "a", []⟩)]
  exact ⟨h.2.1 (0, ⟨"math", "a", []⟩) rfl,
    h.2.2.1 (fun _ _ => .error "boom") (1, ⟨"nope", "b", []⟩) rfl,
    h.2.2.2.2.1 (0, ⟨"math", "a", []⟩) rfl,
    h.2.2.2.2.2 (fun _ _ => .error "boom") (1, ⟨"nope", "b", []⟩) rfl⟩

-- ----------------------------------------------------------------------
-- C5: satisfiable graphs complete in order with dependency-augmented tasks
-- ----------------------------------------------------------------------

/-- Core of C5, shared by both scheduler copies: on a satisfiable graph
with a never-raising index-preserving step runner, the wave loop completes
every step, and the order-rebuilding comprehension produces one entry per
step in original order, each produced by dispatching its own step against a
snapshot that already contained the final results of all its
dependencies. -/
theorem scheduler_run_ordered {α : Type}
    (run : List (Nat × α) → Nat × AgentStep → Except String (Nat × α))
    (hrun : ∀ c p q, run c p = .ok q → q.1 = p.1)
    (htotal : ∀ c p, ∃ q, run c p = .ok q)
    (steps : List AgentStep) (hsat : Satisfiable steps) :
    ∃ res l,
      waveLoop run (steps.length + 1) [] steps.enum = .ok res ∧
      (List.range steps.length).mapM (fun i => res.lookup i) = some l ∧
      l.length = steps.length ∧
      ∀ i st, steps.get? i = some st →
        ∃ e C, l.get? i = some e ∧
          depsReady C (i, st) = true ∧
          run C (i, st) = .ok (i, e) ∧
          ∀ d ∈ st.dependencies, ∃ ed, C.lookup d = some ed ∧ l.get? d = some ed := by
  have hnodup : ((steps.enum).map Prod.fst).Nodup := by
    rw [List.enum_map_fst]
    exact List.nodup_range steps.length
  have hpairs : ∀ p ∈ steps.enum, steps.get? p.1 = some p.2 := by
    intro p hp
    exact List.mem_enum_iff_get?.mp hp
  have hdisj : ∀ k, k ∈ (steps.enum).map Prod.fst → ([] : List (Nat × α)).lookup k = none :=
    fun _ _ => rfl
  have hcov : ∀ i, i < steps.length →
      ((([] : List (Nat × α))).lookup i).isSome ∨ i ∈ (steps.enum).map Prod.fst := by
    intro i hi
    refine Or.inr ?_
    rw [List.enum_map_fst]
    exact List.mem_range.mpr hi
  have hlen : steps.enum.length < steps.length + 1 := by
    rw [List.enum_length]
    omega
  obtain ⟨res, hres, hcovres⟩ :=
    waveLoop_completes run hrun htotal steps hsat (steps.length + 1) [] steps.enum
      hlen hnodup hpairs hdisj hcov
  obtain ⟨l, hmapM, hlenl, hpt⟩ :=
    mapM_option_total (fun i => res.lookup i) (List.range steps.length)
      (fun i hi => hcovres i (List.mem_range.mp hi))
  have hget : ∀ d, d < steps.length → l.get? d = res.lookup d := by
    intro d hd
    exact hpt d d (List.get?_range hd)
  obtain ⟨hN, hP, hK, hV⟩ :=
    waveLoop_spec run hrun (steps.length + 1) [] steps.enum res (by simp) hnodup hdisj hres
  refine ⟨res, l, hres, hmapM, by rw [hlenl, List.length_range], ?_⟩
  intro i st hist
  have hi : i < steps.length := (List.get?_eq_some.mp hist).1
  obtain ⟨v, hv⟩ := Option.isSome_iff_exists.mp (hcovres i hi)
  rcases hV i v hv with h0 | ⟨st', C, hmem, hdr, hrune, hsub⟩
  · exact absurd h0 (by simp [List.lookup])
  · have hst' : st' = st := by
      have := List.mem_enum_iff_get?.mp hmem
      rw [hist] at this
      injection this with h2
      exact h2.symm
    subst hst'
    refine ⟨v, C, by rw [hget i hi, hv], hdr, hrune, ?_⟩
    intro d hd
    have hdready : (C.lookup d).isSome := by
      unfold depsReady at hdr
      have := List.all_eq_true.mp hdr d hd
      simpa using this
    obtain ⟨ed, hed⟩ := Option.isSome_iff_exists.mp hdready
    have hresd : res.lookup d = some ed := hsub d ed hed
    have hdn : d < steps.length := by
      have hdk : d ∈ res.map Prod.fst :=
        (lookup_isSome_iff res d).mp (by simp [hresd])
      rcases hK d hdk with h0 | h1
      · simp at h0
      · rw [List.enum_map_fst] at h1
        exact List.mem_range.mp h1
    exact ⟨ed, hed, by rw [hget d hdn, hresd]⟩

/-- C5: for every satisfiable step list and never-raising agent dispatch,
both scheduler copies return one result per input step, aligned to original
step-list order; each result `i` was produced by dispatching step `i`
against a completed snapshot `C` in which every dependency of step `i` was
already present with its final recorded result — and `execute_step`
prepends exactly those dependency summaries from `C` to the task text when
the dependency set is non-empty. -/
theorem scheduler_satisfiable_ordered_results
    (call : String → String → AgentResult) (steps : List AgentStep)
    (hsat : Satisfiable steps) :
    (∃ l, execute_dynamic_task (fun a t => .ok (call a t)) steps = .ok l ∧
      l.length = steps.length ∧
      ∀ i st, steps.get? i = some st →
        ∃ e C, l.get? i = some e ∧
          depsReady C (i, st) = true ∧
          execute_step_dyn (fun a t => .ok (call a t)) C (i, st) = .ok (i, e) ∧
          ∀ d ∈ st.dependencies, ∃ ed, C.lookup d = some ed ∧ l.get? d = some ed) ∧
    (∃ l, execute_mini_plan (fun a t => .ok (call a t)) steps = .ok l ∧
      l.length = steps.length ∧
      ∀ i st, steps.get? i = some st →
        ∃ e C, l.get? i = some e ∧
          depsReady C (i, st) = true ∧
          execute_step_mini (fun a t => .ok (call a t)) C (i, st) = .ok (i, e) ∧
          ∀ d ∈ st.dependencies, ∃ ed, C.lookup d = some ed ∧ l.get? d = some ed) := by
  constructor
  · obtain ⟨res, l, hres, hmapM, hlen, hmain⟩ :=
      scheduler_run_ordered (execute_step_dyn (fun a t => .ok (call a t)))
        (execute_step_dyn_fst _) (execute_step_dyn_total call) steps hsat
    refine ⟨l, ?_, hlen, hmain⟩
    unfold execute_dynamic_task
    rw [hres, show ((Except.ok res : Except String (List (Nat × AgentExecution))) >>=
      fun completed =>
        match (List.range steps.length).mapM (fun i => completed.lookup i) with
        | some l => pure l
        | none => (.error "KeyError" : Except String (List AgentExecution))) =
      (match (List.range steps.length).mapM (fun i => res.lookup i) with
        | some l => pure l
        | none => (.error "KeyError" : Except String (List AgentExecution))) from rfl, hmapM]
    rfl
  · obtain ⟨res, l, hres, hmapM, hlen, hmain⟩ :=
      scheduler_run_ordered (execute_step_mini (fun a t => .ok (call a t)))
        (execute_step_mini_fst _) (execute_step_mini_total call) steps hsat
    refine ⟨l, ?_, hlen, hmain⟩
    unfold execute_mini_plan
    rw [hres, show ((Except.ok res : Except String (List (Nat × MiniRecord))) >>=
      fun completed =>
        match (List.range steps.length).mapM (fun i => completed.lookup i) with
        | some l => pure l
        | none => (.error "KeyError" : Except String (List MiniRecord))) =
      (match (List.range steps.length).mapM (fun i => res.lookup i) with
        | some l => pure l
        | none => (.error "KeyError" : Except String (List MiniRecord))) from rfl, hmapM]
    rfl

/-- Witness for `scheduler_satisfiable_ordered_results` on the diamond
`[\x7bdeps []\x7d, \x7bdeps []\x7d, \x7bdeps [0, 1]\x7d]`. -/
theorem scheduler_satisfiable_ordered_results_witness :
    (∃ l, execute_dynamic_task
        (fun a t => .ok ((fun agent task => { final_result := agent ++ ":" ++ task }) a t))
        [⟨"math", "a", []⟩, ⟨"string", "b", []⟩, ⟨"code", "c", [0, 1]⟩] = .ok l ∧
      l.length = [⟨"math", "a", []⟩, ⟨"string", "b", []⟩,
        (⟨"code", "c", [0, 1]⟩ : AgentStep)].length ∧
      ∀ i st, [⟨"math", "a", []⟩, ⟨"string", "b", []⟩,
          (⟨"code", "c", [0, 1]⟩ : AgentStep)].get? i = some st →
        ∃ e C, l.get? i = some e ∧
          depsReady C (i, st) = true ∧
          execute_step_dyn
            (fun a t => .ok ((fun agent task => { final_result := agent ++ ":" ++ task }) a t))
            C (i, st) = .ok (i, e) ∧
          ∀ d ∈ st.dependencies, ∃ ed, C.lookup d = some ed ∧ l.get? d = some ed) ∧
    (∃ l, execute_mini_plan
        (fun a t => .ok ((fun agent task => { final_result := agent ++ ":" ++ task }) a t))
        [⟨"math", "a", []⟩, ⟨"string", "b", []⟩, ⟨"code", "c", [0, 1]⟩] = .ok l ∧
      l.length = [⟨"math", "a", []⟩, ⟨"string", "b", []⟩,
        (⟨"code", "c", [0, 1]⟩ : AgentStep)].length ∧
      ∀ i st, [⟨"math", "a", []⟩, ⟨"string", "b", []⟩,
          (⟨"code", "c", [0, 1]⟩ : AgentStep)].get? i = some st →
        ∃ e C, l.get? i = some e ∧
          depsReady C (i, st) = true ∧
          execute_step_mini
            (fun a t => .ok ((fun agent task => { final_result := agent ++ ":" ++ task }) a t))
            C (i, st) = .ok (i, e) ∧
          ∀ d ∈ st.dependencies, ∃ ed, C.lookup d = some ed ∧ l.get? d = some ed) :=
  scheduler_satisfiable_ordered_results
    (fun agent task => { final_result := agent ++ ":" ++ task })
    [⟨"math", "a", []⟩, ⟨"string", "b", []⟩, ⟨"code", "c", [0, 1]⟩]
    (by unfold Satisfiable; decide)

end AgentCore
